import Mathlib

/-!
Shallow embedding of the Helix virtual-memory core from `coms3/franken.py`:
the tiered cache (`HelixCache`), the budgeted memory manager
(`HelixMemoryManager`), the file cache (`HelixFS`) and the handle
translator (`HelixTranslator`), together with operation languages used to
state reachability invariants.

Modelling conventions:
* Python byte strings are `List Nat`.
* `pickle.dumps`, `zlib.compress` and disk reads are opaque effects of the
  source environment; they enter through the `Params` record (`sizeOf`,
  `compress`, `disk`).  A `compress` result of `none` models the exception
  branch of `CacheBlock.compress` (the block stays uncompressed).
* `pickle.loads ∘ zlib.decompress` applied to data produced by
  `zlib.compress ∘ pickle.dumps` restores the original value, and the source
  never clears `data` when compressing, so `decompress` is modelled as
  resetting the compression flags.
* Wall-clock timestamps (`last_access`, `created_at`) are omitted: no claim
  observes them.  The cache statistics counters are kept (the eviction
  counter is observable behaviour); the purely informational counters of the
  memory manager, file system and translator are omitted.
* Python `dict`s are association lists with unique keys: assignment replaces
  in place (keeping insertion order), `pop` and `del` remove,
  `OrderedDict.move_to_end` reinserts at the back, `next(iter(d))` is the
  head entry.
* The synthetic cache-key strings built by the source
  (`"mem_{ptr:016x}_{size}"`, `"file:" + path`, caller-chosen keys) are
  injective string encodings, modelled by the inductive type `HKey`.
* An uncaught `KeyError` (a `del` on a missing key) is modelled by `Option`:
  `none` is an exception escaping to the caller.
-/

/-- Byte strings. -/
abbrev Bytes := List Nat

/-- Cache keys: caller-supplied keys, translator memory keys
(`"mem_{ptr:016x}_{size}"`) and file-cache keys (`"file:" + path`).
The source's string encodings are injective, so the inductive type is a
faithful model of the key space. -/
inductive HKey where
  | user (s : String)
  | mem (ptr size : Nat)
  | file (path : String)
deriving DecidableEq, Repr

/-- The five memory tiers of the source enumeration (only the first three
are routed to). -/
inductive MemoryTier where
  | l1Hot
  | l2Warm
  | l3Compressed
  | l4Cold
  | l5Disk
deriving DecidableEq, Repr

/-- `CacheBlock` from the source, minus the wall-clock timestamp and the
redundant `key` field (the enclosing dictionary key serves). -/
structure CacheBlock where
  data : Bytes
  tier : MemoryTier
  sizeBytes : Nat
  accessCount : Nat := 0
  compressed : Bool := false
  compressedData : Option Bytes := none
deriving DecidableEq, Repr

/-- The opaque environment of the source: serialized size of a value
(`len(pickle.dumps(data))`, total because the source falls back to a default
on failure), the compressor (`zlib.compress(pickle.dumps(·))`, `none` on
failure) and durable-storage reads (`none` when the file is missing or
unreadable). -/
structure Params where
  sizeOf : Bytes → Nat
  compress : Bytes → Option Bytes
  disk : String → Option Bytes

/-- `CacheBlock.access` (timestamp update omitted). -/
def CacheBlock.access (b : CacheBlock) : CacheBlock :=
  { b with accessCount := b.accessCount + 1 }

/-- `CacheBlock.compress`: returns the updated block and the saved bytes
(`max 0 (size_bytes - len(compressed))`, which is the truncated `Nat`
subtraction).  A failing compressor leaves the block untouched and reports
0 saved. -/
def CacheBlock.compressB (P : Params) (b : CacheBlock) : CacheBlock × Nat :=
  if !b.compressed then
    match P.compress b.data with
    | some cd => ({ b with compressed := true, compressedData := some cd },
                  b.sizeBytes - cd.length)
    | none => (b, 0)
  else (b, 0)

/-- `CacheBlock.decompress`: the guard `self.compressed and
self._compressed_data` uses Python truthiness, so an empty compressed
payload leaves the block unchanged.  On success the flags are reset; `data`
was never cleared by `compress`, so it already holds the round-tripped
value. -/
def CacheBlock.decompressB (b : CacheBlock) : CacheBlock :=
  match b.compressedData with
  | some cd =>
    if b.compressed && !cd.isEmpty then
      { b with compressed := false, compressedData := none }
    else b
  | none => b

/-- Effective occupancy contribution of a block, as computed by
`_get_tier_size`: `len(_compressed_data)` when `block.compressed and
block._compressed_data` is truthy, else `size_bytes`. -/
def effSize (b : CacheBlock) : Nat :=
  match b.compressed, b.compressedData with
  | true, some cd => if cd.isEmpty then b.sizeBytes else cd.length
  | _, _ => b.sizeBytes

/-- Python `d[k]` lookup on an association list. -/
def dictLookup {κ α : Type} [DecidableEq κ] (t : List (κ × α)) (k : κ) :
    Option α :=
  (t.find? (fun p => decide (p.1 = k))).map Prod.snd

/-- Python `d.pop(k, None)` / `del d[k]` (keys are unique by construction,
so removing every matching entry is the same as removing the one entry). -/
def dictPop {κ α : Type} [DecidableEq κ] (t : List (κ × α)) (k : κ) :
    List (κ × α) :=
  t.filter (fun p => !decide (p.1 = k))

/-- Python `d[k] = v`: replaces in place when the key is present (dict
assignment keeps the insertion position), appends otherwise. -/
def dictInsert {κ α : Type} [DecidableEq κ] (t : List (κ × α)) (k : κ)
    (v : α) : List (κ × α) :=
  if t.any (fun p => decide (p.1 = k)) then
    t.map (fun p => if p.1 = k then (k, v) else p)
  else t ++ [(k, v)]

/-- The key list of a dictionary. -/
def keysOf {κ α : Type} (t : List (κ × α)) : List κ :=
  t.map Prod.fst

/-- A cache tier: an ordered dictionary of blocks, least recently touched
first. -/
abbrev Tier := List (HKey × CacheBlock)

/-- The statistics dictionary of `HelixCache`. -/
structure CacheStats where
  l1Hits : Nat := 0
  l1Misses : Nat := 0
  l2Hits : Nat := 0
  l2Misses : Nat := 0
  l3Hits : Nat := 0
  l3Misses : Nat := 0
  promotions : Nat := 0
  demotions : Nat := 0
  evictions : Nat := 0
  compressions : Nat := 0
deriving DecidableEq, Repr

/-- `HelixCache`: three capacity-bounded tiers plus statistics. -/
structure HelixCache where
  l1Max : Nat
  l2Max : Nat
  l3Max : Nat
  l1 : Tier := []
  l2 : Tier := []
  l3 : Tier := []
  stats : CacheStats := {}
deriving DecidableEq, Repr

/-- `HelixCache.__init__`: capacities are given in megabytes. -/
def initCache (l1Mb l2Mb l3Mb : Nat) : HelixCache :=
  { l1Max := l1Mb * 1024 * 1024
    l2Max := l2Mb * 1024 * 1024
    l3Max := l3Mb * 1024 * 1024 }

/-- `HelixCache._get_tier_size`. -/
def getTierSize (t : Tier) : Nat :=
  (t.map (fun p => effSize p.2)).sum

/-- The loop body of `_make_room_l3` on the bare tier: repeatedly deletes
the head entry while the occupancy plus the needed size exceeds the
capacity; returns the resulting tier and the number of evictions. -/
def makeRoomL3Go (l3Max needed : Nat) : Tier → Tier × Nat
  | [] => ([], 0)
  | p :: rest =>
    if getTierSize (p :: rest) + needed > l3Max then
      let r := makeRoomL3Go l3Max needed rest
      (r.1, r.2 + 1)
    else (p :: rest, 0)

/-- `HelixCache._make_room_l3`. -/
def makeRoomL3 (c : HelixCache) (needed : Nat) : HelixCache :=
  let r := makeRoomL3Go c.l3Max needed c.l3
  { c with l3 := r.1
           stats := { c.stats with evictions := c.stats.evictions + r.2 } }

/-- `HelixCache._demote_to_l3`: pop from Warm, compress, make room in
Compressed using the compressed size (`len(_compressed_data) if
_compressed_data else size_bytes`, again Python truthiness), insert. -/
def demoteToL3 (P : Params) (c : HelixCache) (k : HKey) (b : CacheBlock) :
    HelixCache :=
  let c1 := { c with l2 := dictPop c.l2 k }
  let r := CacheBlock.compressB P b
  let b1 := r.1
  let c2 := if r.2 > 0 then
      { c1 with stats :=
          { c1.stats with compressions := c1.stats.compressions + 1 } }
    else c1
  let size := match b1.compressedData with
    | some cd => if cd.isEmpty then b1.sizeBytes else cd.length
    | none => b1.sizeBytes
  let c3 := makeRoomL3 c2 size
  { c3 with l3 := dictInsert c3.l3 k { b1 with tier := MemoryTier.l3Compressed }
            stats := { c3.stats with demotions := c3.stats.demotions + 1 } }

/-- The loop of `_make_room_l2`, with explicit fuel (each iteration removes
the Warm head, so `l2.length + 1` fuel always suffices). -/
def makeRoomL2Fuel (P : Params) (needed : Nat) :
    Nat → HelixCache → HelixCache
  | 0, c => c
  | fuel + 1, c =>
    match c.l2 with
    | [] => c
    | (k, b) :: _ =>
      if getTierSize c.l2 + needed > c.l2Max then
        makeRoomL2Fuel P needed fuel (demoteToL3 P c k b)
      else c

/-- `HelixCache._make_room_l2`. -/
def makeRoomL2 (P : Params) (c : HelixCache) (needed : Nat) : HelixCache :=
  makeRoomL2Fuel P needed (c.l2.length + 1) c

/-- `HelixCache._demote_to_l2`. -/
def demoteToL2 (P : Params) (c : HelixCache) (k : HKey) (b : CacheBlock) :
    HelixCache :=
  let c1 := { c with l1 := dictPop c.l1 k }
  let c2 := makeRoomL2 P c1 b.sizeBytes
  { c2 with l2 := dictInsert c2.l2 k { b with tier := MemoryTier.l2Warm }
            stats := { c2.stats with demotions := c2.stats.demotions + 1 } }

/-- The loop of `_make_room_l1`, with explicit fuel (each iteration removes
the Hot head). -/
def makeRoomL1Fuel (P : Params) (needed : Nat) :
    Nat → HelixCache → HelixCache
  | 0, c => c
  | fuel + 1, c =>
    match c.l1 with
    | [] => c
    | (k, b) :: _ =>
      if getTierSize c.l1 + needed > c.l1Max then
        makeRoomL1Fuel P needed fuel (demoteToL2 P c k b)
      else c

/-- `HelixCache._make_room_l1`. -/
def makeRoomL1 (P : Params) (c : HelixCache) (needed : Nat) : HelixCache :=
  makeRoomL1Fuel P needed (c.l1.length + 1) c

/-- `HelixCache._promote_to_l1`. -/
def promoteToL1 (P : Params) (c : HelixCache) (k : HKey) (b : CacheBlock) :
    HelixCache :=
  let c1 := { c with l2 := dictPop c.l2 k }
  let c2 := makeRoomL1 P c1 b.sizeBytes
  { c2 with l1 := dictInsert c2.l1 k { b with tier := MemoryTier.l1Hot }
            stats := { c2.stats with promotions := c2.stats.promotions + 1 } }

/-- `HelixCache._promote_to_l2`. -/
def promoteToL2 (P : Params) (c : HelixCache) (k : HKey) (b : CacheBlock) :
    HelixCache :=
  let c1 := { c with l3 := dictPop c.l3 k }
  let c2 := makeRoomL2 P c1 b.sizeBytes
  { c2 with l2 := dictInsert c2.l2 k { b with tier := MemoryTier.l2Warm }
            stats := { c2.stats with promotions := c2.stats.promotions + 1 } }

/-- `HelixCache.get`: check Hot, Warm, Compressed in order; the Python
blocks are mutated in place, so the updated block is what move-to-end or
promotion stores. -/
def cacheGet (P : Params) (c : HelixCache) (k : HKey) :
    Option Bytes × HelixCache :=
  match dictLookup c.l1 k with
  | some b =>
    let b1 := b.access
    (some b1.data,
     { c with stats := { c.stats with l1Hits := c.stats.l1Hits + 1 }
              l1 := dictPop c.l1 k ++ [(k, b1)] })
  | none =>
    let c1 := { c with stats := { c.stats with l1Misses := c.stats.l1Misses + 1 } }
    match dictLookup c1.l2 k with
    | some b =>
      let b1 := b.access
      let c2 := { c1 with stats := { c1.stats with l2Hits := c1.stats.l2Hits + 1 } }
      if b1.accessCount > 3 then
        (some b1.data, promoteToL1 P c2 k b1)
      else
        (some b1.data, { c2 with l2 := dictPop c2.l2 k ++ [(k, b1)] })
    | none =>
      let c2 := { c1 with stats := { c1.stats with l2Misses := c1.stats.l2Misses + 1 } }
      match dictLookup c2.l3 k with
      | some b =>
        let b1 := b.access
        let b2 := if b1.compressed then b1.decompressB else b1
        let c3 := { c2 with stats := { c2.stats with l3Hits := c2.stats.l3Hits + 1 } }
        if b2.accessCount > 2 then
          (some b2.data, promoteToL2 P c3 k b2)
        else
          (some b2.data, { c3 with l3 := dictPop c3.l3 k ++ [(k, b2)] })
      | none =>
        (none, { c2 with stats := { c2.stats with l3Misses := c2.stats.l3Misses + 1 } })

/-- `HelixCache.put`: pop the key from Warm and Compressed, make room in
Hot, insert the fresh Hot block at the most-recent end (or over the key's
surviving Hot entry, keeping its position, as dict assignment does). -/
def cachePut (P : Params) (c : HelixCache) (k : HKey) (d : Bytes)
    (size : Nat) : HelixCache :=
  let c1 := { c with l2 := dictPop c.l2 k, l3 := dictPop c.l3 k }
  let b : CacheBlock := { data := d, tier := MemoryTier.l1Hot, sizeBytes := size }
  let c2 := makeRoomL1 P c1 size
  { c2 with l1 := dictInsert c2.l1 k b }

/-- `HelixMemoryManager`: the budgeted allocator (informational statistics
omitted).  `totalAllocated` is an unbounded signed integer, as in Python. -/
structure HelixMemoryManager where
  cache : HelixCache
  maxVirtual : Int
  allocations : List (HKey × Nat) := []
  totalAllocated : Int := 0
deriving DecidableEq, Repr

/-- `HelixMemoryManager.__init__`: the budget is given in megabytes. -/
def initMem (c : HelixCache) (maxVirtualMb : Nat) : HelixMemoryManager :=
  { cache := c, maxVirtual := (maxVirtualMb * 1024 * 1024 : Nat) }

/-- `HelixMemoryManager.malloc`. -/
def memMalloc (P : Params) (m : HelixMemoryManager) (k : HKey) (d : Bytes) :
    Bool × HelixMemoryManager :=
  let size := P.sizeOf d
  if m.totalAllocated + size > m.maxVirtual then (false, m)
  else
    (true,
     { m with cache := cachePut P m.cache k d size
              allocations := dictInsert m.allocations k size
              totalAllocated := m.totalAllocated + size })

/-- `HelixMemoryManager.free`. -/
def memFree (m : HelixMemoryManager) (k : HKey) :
    Bool × HelixMemoryManager :=
  match dictLookup m.allocations k with
  | none => (false, m)
  | some size =>
    (true,
     { m with totalAllocated := m.totalAllocated - size
              allocations := dictPop m.allocations k
              cache := { m.cache with l1 := dictPop m.cache.l1 k
                                      l2 := dictPop m.cache.l2 k
                                      l3 := dictPop m.cache.l3 k } })

/-- `HelixMemoryManager.read`. -/
def memRead (P : Params) (m : HelixMemoryManager) (k : HKey) :
    Option Bytes × HelixMemoryManager :=
  let r := cacheGet P m.cache k
  (r.1, { m with cache := r.2 })

/-- `HelixMemoryManager.write`: free (when allocated) then malloc. -/
def memWrite (P : Params) (m : HelixMemoryManager) (k : HKey) (d : Bytes) :
    Bool × HelixMemoryManager :=
  let m1 := if (dictLookup m.allocations k).isSome then (memFree m k).2 else m
  memMalloc P m1 k d

/-- `HelixFS`: the write-through file cache (statistics and the actual disk
writes, which do not touch the in-process state, are omitted). -/
structure HelixFS where
  memory : HelixMemoryManager
  fileCache : List (String × HKey) := []
deriving DecidableEq, Repr

/-- `HelixFS.read_file`: serve from the memory manager, else read durable
storage (`Params.disk`), insert on success. -/
def fsReadFile (P : Params) (f : HelixFS) (path : String) :
    Option Bytes × HelixFS :=
  let ck := HKey.file path
  let r := memRead P f.memory ck
  match r.1 with
  | some d => (some d, { f with memory := r.2 })
  | none =>
    match P.disk path with
    | none => (none, { f with memory := r.2 })
    | some data =>
      let r2 := memMalloc P r.2 ck data
      (some data,
       { f with memory := r2.2, fileCache := dictInsert f.fileCache path ck })

/-- `HelixFS.write_file` (the best-effort durable write has no in-process
effect and is omitted). -/
def fsWriteFile (P : Params) (f : HelixFS) (path : String) (d : Bytes) :
    HelixFS :=
  let r := memWrite P f.memory (HKey.file path) d
  { f with memory := r.2
           fileCache := dictInsert f.fileCache path (HKey.file path) }

/-- `TranslationEntry` (timestamps omitted). -/
structure TranslationEntry where
  appPointer : Nat
  helixKey : HKey
  size : Nat
  accessCount : Nat := 0
deriving DecidableEq, Repr

/-- `TranslationEntry.access`. -/
def TranslationEntry.accessT (e : TranslationEntry) : TranslationEntry :=
  { e with accessCount := e.accessCount + 1 }

/-- `HelixTranslator` over the unified system: `fs.memory` is the shared
memory manager (statistics omitted). -/
structure HelixTranslator where
  fs : HelixFS
  ptrToKey : List (Nat × TranslationEntry) := []
  keyToPtr : List (HKey × Nat) := []
  nextFakePointer : Nat := 0x10000000
  fdToPath : List (Nat × String) := []
  pathToFd : List (String × Nat) := []
  nextFakeFd : Nat := 1000
deriving DecidableEq, Repr

/-- `HelixTranslator.translate_malloc`: the key string
`"mem_{next_fake_pointer:016x}_{size}"` is modelled by `HKey.mem`; the
buffer is `size` zero bytes. -/
def translateMalloc (P : Params) (t : HelixTranslator) (size : Nat) :
    Nat × HelixTranslator :=
  let helixKey := HKey.mem t.nextFakePointer size
  let data : Bytes := List.replicate size 0
  let r := memMalloc P t.fs.memory helixKey data
  let t1 := { t with fs := { t.fs with memory := r.2 } }
  if !r.1 then (0, t1)
  else
    let fakePtr := t.nextFakePointer
    let entry : TranslationEntry :=
      { appPointer := fakePtr, helixKey := helixKey, size := size }
    (fakePtr,
     { t1 with nextFakePointer := fakePtr + 0x1000
               ptrToKey := dictInsert t1.ptrToKey fakePtr entry
               keyToPtr := dictInsert t1.keyToPtr helixKey fakePtr })

/-- `HelixTranslator.translate_free`: the unguarded
`del key_to_ptr[entry.helix_key]` raises `KeyError` when the key is absent
(`none`). -/
def translateFree (t : HelixTranslator) (ptr : Nat) :
    Option (Bool × HelixTranslator) :=
  match dictLookup t.ptrToKey ptr with
  | none => some (false, t)
  | some entry =>
    let r := memFree t.fs.memory entry.helixKey
    if (dictLookup t.keyToPtr entry.helixKey).isSome then
      some (true,
        { t with fs := { t.fs with memory := r.2 }
                 ptrToKey := dictPop t.ptrToKey ptr
                 keyToPtr := dictPop t.keyToPtr entry.helixKey })
    else none

/-- `HelixTranslator.translate_read`: whole-buffer read, then the clamped
Python slice `data[offset : offset + size]`. -/
def translateRead (P : Params) (t : HelixTranslator) (ptr size offset : Nat) :
    Option Bytes × HelixTranslator :=
  match dictLookup t.ptrToKey ptr with
  | none => (none, t)
  | some entry =>
    let t1 := { t with ptrToKey := dictInsert t.ptrToKey ptr entry.accessT }
    let r := memRead P t1.fs.memory entry.helixKey
    let t2 := { t1 with fs := { t1.fs with memory := r.2 } }
    match r.1 with
    | none => (none, t2)
    | some data => (some ((data.drop offset).take size), t2)

/-- Python `bytearray` slice assignment
`buffer[offset : offset + len(data)] = data`: both slice indices are
clamped to the buffer length, then the clamped range is replaced. -/
def spliceAssign (buffer : Bytes) (offset : Nat) (data : Bytes) : Bytes :=
  buffer.take (min offset buffer.length) ++ data ++
    buffer.drop (min (offset + data.length) buffer.length)

/-- `HelixTranslator.translate_write`: read the whole buffer (a missing or
empty read yields `entry.size` zero bytes — Python truthiness of
`existing`), splice, write the whole buffer back. -/
def translateWrite (P : Params) (t : HelixTranslator) (ptr : Nat)
    (data : Bytes) (offset : Nat) : Bool × HelixTranslator :=
  match dictLookup t.ptrToKey ptr with
  | none => (false, t)
  | some entry =>
    let t1 := { t with ptrToKey := dictInsert t.ptrToKey ptr entry.accessT }
    let r := memRead P t1.fs.memory entry.helixKey
    let buffer := match r.1 with
      | some bs => if bs.isEmpty then List.replicate entry.size 0 else bs
      | none => List.replicate entry.size 0
    let buf2 := spliceAssign buffer offset data
    let w := memWrite P r.2 entry.helixKey buf2
    (w.1, { t1 with fs := { t1.fs with memory := w.2 } })

/-- `HelixTranslator.translate_open` (the mode argument is ignored by the
source). -/
def translateOpen (t : HelixTranslator) (path : String) :
    Nat × HelixTranslator :=
  let fd := t.nextFakeFd
  (fd,
   { t with nextFakeFd := fd + 1
            fdToPath := dictInsert t.fdToPath fd path
            pathToFd := dictInsert t.pathToFd path fd })

/-- `HelixTranslator.translate_read_file`: `data[:size] if data else None`
(an empty file reads as a miss). -/
def translateReadFile (P : Params) (t : HelixTranslator) (fd size : Nat) :
    Option Bytes × HelixTranslator :=
  match dictLookup t.fdToPath fd with
  | none => (none, t)
  | some path =>
    let r := fsReadFile P t.fs path
    let t1 := { t with fs := r.2 }
    match r.1 with
    | some d => (if d.isEmpty then none else some (d.take size), t1)
    | none => (none, t1)

/-- `HelixTranslator.translate_write_file`. -/
def translateWriteFile (P : Params) (t : HelixTranslator) (fd : Nat)
    (d : Bytes) : Bool × HelixTranslator :=
  match dictLookup t.fdToPath fd with
  | none => (false, t)
  | some path => (true, { t with fs := fsWriteFile P t.fs path d })

/-- `HelixTranslator.translate_close`: `del fd_to_path[fd]` is guarded, but
the following `del path_to_fd[filepath]` is not — when another descriptor
for the same path was closed first, the reverse entry is already gone and
the call raises an uncaught `KeyError` (`none`). -/
def translateClose (t : HelixTranslator) (fd : Nat) :
    Option (Bool × HelixTranslator) :=
  match dictLookup t.fdToPath fd with
  | none => some (false, t)
  | some path =>
    let t1 := { t with fdToPath := dictPop t.fdToPath fd }
    if (dictLookup t1.pathToFd path).isSome then
      some (true, { t1 with pathToFd := dictPop t1.pathToFd path })
    else none

/-- Public operations of the budgeted allocator together with the raw cache
operations they build on. -/
inductive MemOp where
  | get (k : HKey)
  | put (k : HKey) (d : Bytes) (size : Nat)
  | malloc (k : HKey) (d : Bytes)
  | free (k : HKey)
  | read (k : HKey)
  | write (k : HKey) (d : Bytes)

/-- One operation at the memory-manager level (return values dropped). -/
def memStep (P : Params) (m : HelixMemoryManager) : MemOp → HelixMemoryManager
  | MemOp.get k => { m with cache := (cacheGet P m.cache k).2 }
  | MemOp.put k d size => { m with cache := cachePut P m.cache k d size }
  | MemOp.malloc k d => (memMalloc P m k d).2
  | MemOp.free k => (memFree m k).2
  | MemOp.read k => (memRead P m k).2
  | MemOp.write k d => (memWrite P m k d).2

/-- Run a sequence of operations. -/
def memRun (P : Params) (m : HelixMemoryManager) : List MemOp → HelixMemoryManager
  | [] => m
  | op :: ops => memRun P (memStep P m op) ops

/-- Translator-level operations. -/
inductive TOp where
  | tmalloc (size : Nat)
  | tfree (ptr : Nat)
  | tread (ptr size offset : Nat)
  | twrite (ptr : Nat) (data : Bytes) (offset : Nat)
  | topen (path : String)
  | treadFile (fd size : Nat)
  | twriteFile (fd : Nat) (data : Bytes)
  | tclose (fd : Nat)

/-- One translator operation; `none` is an uncaught exception. -/
def tStep (P : Params) (t : HelixTranslator) : TOp → Option HelixTranslator
  | TOp.tmalloc size => some (translateMalloc P t size).2
  | TOp.tfree ptr => (translateFree t ptr).map Prod.snd
  | TOp.tread ptr size offset => some (translateRead P t ptr size offset).2
  | TOp.twrite ptr data offset => some (translateWrite P t ptr data offset).2
  | TOp.topen path => some (translateOpen t path).2
  | TOp.treadFile fd size => some (translateReadFile P t fd size).2
  | TOp.twriteFile fd data => some (translateWriteFile P t fd data).2
  | TOp.tclose fd => (translateClose t fd).map Prod.snd

/-- Run a sequence of translator operations; `none` as soon as one raises. -/
def tRun (P : Params) (t : HelixTranslator) : List TOp → Option HelixTranslator
  | [] => some t
  | op :: ops =>
    match tStep P t op with
    | none => none
    | some t1 => tRun P t1 ops

/-- A fresh translator over a fresh system (`HelixSystem.__init__` with the
given cache capacities and budget, in megabytes). -/
def initTranslator (l1Mb l2Mb l3Mb vramMb : Nat) : HelixTranslator :=
  { fs := { memory := initMem (initCache l1Mb l2Mb l3Mb) vramMb } }

/-- A demonstration environment: serialized size is the byte length,
compression always fails (blocks stay uncompressed), the disk is empty. -/
def pLen : Params :=
  { sizeOf := List.length, compress := fun _ => none, disk := fun _ => none }

/-- A demonstration environment whose serialized size is a constant 2 MB.
-/
def pBig : Params :=
  { sizeOf := fun _ => 2 * 1024 * 1024
    compress := fun _ => none
    disk := fun _ => none }

/-- A state with the key `"k"` Warm-resident at access count 3: Hot holds
1 MB, two 600 KB blocks are stored (demoting `"k"` to Warm), then `"k"` is
hit three times. -/
def c1Warm3 : HelixMemoryManager :=
  memRun pLen (initMem (initCache 1 100 100) 8192)
    [MemOp.put (HKey.user "k") [] 614400, MemOp.put (HKey.user "j") [] 614400,
     MemOp.get (HKey.user "k"), MemOp.get (HKey.user "k"), MemOp.get (HKey.user "k")]

/-- The state after re-`put`ting a Hot-resident key under Hot capacity
pressure (Hot holds 1 MB, both blocks are 600 KB). -/
def c3Dup : HelixMemoryManager :=
  memRun pLen (initMem (initCache 1 100 100) 8192)
    [MemOp.put (HKey.user "k") [1] 614400, MemOp.put (HKey.user "k") [2] 614400]

/-- Four sequential 2 MB `malloc`s against 1 MB tiers: the fourth cascades
`"k1"` out of the Compressed tier by eviction. -/
def c4Evict : HelixMemoryManager :=
  memRun pBig (initMem (initCache 1 1 1) 8192)
    [MemOp.malloc (HKey.user "k1") [], MemOp.malloc (HKey.user "k2") [],
     MemOp.malloc (HKey.user "k3") [], MemOp.malloc (HKey.user "k4") []]

/-- A fresh translator holding one 4-byte zero-filled buffer (its pointer is
`0x10000000 = 268435456`). -/
def t7Base : HelixTranslator :=
  (translateMalloc pLen (initTranslator 512 2048 6000 8096) 4).2

/-- Writing two bytes at offset 6 into the 4-byte buffer. -/
def t7BadWrite : Bool × HelixTranslator :=
  translateWrite pLen t7Base 268435456 [88, 89] 6

/-- Opening the same path twice (descriptors 1000 and 1001). -/
def t8TwoOpens : HelixTranslator :=
  (translateOpen (translateOpen (initTranslator 512 2048 6000 8096) "a").2 "a").2

/-- A key is resident somewhere in the tiered cache. -/
def residentKey (c : HelixCache) (k : HKey) : Prop :=
  k ∈ keysOf c.l1 ∨ k ∈ keysOf c.l2 ∨ k ∈ keysOf c.l3

/-- The allocator's key set is a subset of the resident keys. -/
def allocSubset (m : HelixMemoryManager) : Prop :=
  ∀ k, k ∈ keysOf m.allocations → residentKey m.cache k

/-- Each key is held by at most one tier. -/
def tiersDisjoint (c : HelixCache) : Prop :=
  (∀ k, k ∈ keysOf c.l1 → k ∉ keysOf c.l2 ∧ k ∉ keysOf c.l3) ∧
  (∀ k, k ∈ keysOf c.l2 → k ∉ keysOf c.l3)

/-- The side condition under which single-tier residence is preserved: a
`put` (or the `put` inside `malloc`) must not target a key currently
Hot-resident, and a `write` must target either an allocated key (so the
internal `free` purges Hot first) or a non-Hot key. -/
def putGuard (m : HelixMemoryManager) : MemOp → Bool
  | MemOp.put k _ _ => !(decide (k ∈ keysOf m.cache.l1))
  | MemOp.malloc k _ => !(decide (k ∈ keysOf m.cache.l1))
  | MemOp.write k _ =>
      (dictLookup m.allocations k).isSome || !(decide (k ∈ keysOf m.cache.l1))
  | _ => true

/-- A run of operations all of whose `put`s satisfy `putGuard` in the state
where they execute. -/
def guardedRun (P : Params) : HelixMemoryManager → List MemOp → Bool
  | _, [] => true
  | m, op :: ops => putGuard m op && guardedRun P (memStep P m op) ops

/-- The size an operation inserts fits both the Hot and Warm capacities
(trivially true for operations that insert nothing). -/
def opSizeOK (P : Params) (c1 c2 : Nat) : MemOp → Bool
  | MemOp.put _ _ size => decide (size ≤ c1) && decide (size ≤ c2)
  | MemOp.malloc _ d => decide (P.sizeOf d ≤ c1) && decide (P.sizeOf d ≤ c2)
  | MemOp.write _ d => decide (P.sizeOf d ≤ c1) && decide (P.sizeOf d ≤ c2)
  | _ => true

/-- The compressor never returns an empty byte string (true of `zlib`,
whose output is never empty). -/
def comprNonempty (P : Params) : Prop :=
  ∀ d, P.compress d ≠ some []

/-- Keys of a dictionary are pairwise distinct. -/
def dictNodup {κ α : Type} (t : List (κ × α)) : Prop :=
  (keysOf t).Nodup

/-- Every block of the tier is uncompressed. -/
def tierUncompressed (t : Tier) : Prop :=
  ∀ p ∈ t, p.2.compressed = false

/-- Every compressed block of the tier carries a nonempty compressed
payload (so `decompress` always succeeds on it). -/
def tierComprOK (t : Tier) : Prop :=
  ∀ p ∈ t, p.2.compressed = true →
    ∃ cd, p.2.compressedData = some cd ∧ cd ≠ []

/-- Every block of the tier fits both the Hot and Warm capacities. -/
def tierSizesOK (c1 c2 : Nat) (t : Tier) : Prop :=
  ∀ p ∈ t, p.2.sizeBytes ≤ c1 ∧ p.2.sizeBytes ≤ c2

/-- The inductive cache invariant behind the Hot/Warm occupancy bounds:
unique keys per tier, Hot and Warm blocks uncompressed, every block small
enough for Hot and Warm, compressed blocks decompressible, and the Hot and
Warm occupancy bounds themselves. -/
def CInv (c : HelixCache) : Prop :=
  dictNodup c.l1 ∧ dictNodup c.l2 ∧ dictNodup c.l3 ∧
  tierUncompressed c.l1 ∧ tierUncompressed c.l2 ∧
  tierSizesOK c.l1Max c.l2Max c.l1 ∧ tierSizesOK c.l1Max c.l2Max c.l2 ∧
  tierSizesOK c.l1Max c.l2Max c.l3 ∧
  tierComprOK c.l3 ∧
  getTierSize c.l1 ≤ c.l1Max ∧ getTierSize c.l2 ≤ c.l2Max

/-- The translator handle invariant: every active pointer is below the
pointer counter and its entry's key embeds the pointer itself; every active
descriptor is below the descriptor counter. -/
def TInv (t : HelixTranslator) : Prop :=
  (∀ p ∈ t.ptrToKey, p.1 < t.nextFakePointer ∧
    p.2.helixKey = HKey.mem p.1 p.2.size) ∧
  (∀ q ∈ t.fdToPath, q.1 < t.nextFakeFd)

/-- The occupancy size `_demote_to_l3` passes to `_make_room_l3`
(`len(_compressed_data) if _compressed_data else size_bytes` of the
compressed block). -/
def demoteSize (P : Params) (b : CacheBlock) : Nat :=
  match (CacheBlock.compressB P b).1.compressedData with
  | some cd => if cd.isEmpty then (CacheBlock.compressB P b).1.sizeBytes
               else cd.length
  | none => (CacheBlock.compressB P b).1.sizeBytes

/-- A translator state reached by a short run, for the C8 witness. -/
def t8Reached : HelixTranslator :=
  (tRun pLen (initTranslator 1 1 1 8192)
    [TOp.tmalloc 4, TOp.topen "a"]).getD (initTranslator 1 1 1 8192)

/-! ### Dictionary lemmas -/

theorem mem_keysOf {κ α : Type} {t : List (κ × α)} {k : κ} :
    k ∈ keysOf t ↔ ∃ v, (k, v) ∈ t := by
  unfold keysOf
  constructor
  · intro h
    obtain ⟨p, hp, hpk⟩ := List.mem_map.mp h
    exact ⟨p.2, by rwa [show (k, p.2) = p from by rw [← hpk]]⟩
  · rintro ⟨v, hv⟩
    exact List.mem_map.mpr ⟨(k, v), hv, rfl⟩

theorem dictLookup_eq_none {κ α : Type} [DecidableEq κ] {t : List (κ × α)}
    {k : κ} : dictLookup t k = none ↔ k ∉ keysOf t := by
  unfold dictLookup
  rw [Option.map_eq_none', List.find?_eq_none]
  constructor
  · intro h hk
    obtain ⟨v, hv⟩ := mem_keysOf.mp hk
    exact absurd (by simp : decide (((k, v) : κ × α).1 = k) = true) (h (k, v) hv)
  · intro h p hp hdec
    have : p.1 = k := by simpa using hdec
    exact h (mem_keysOf.mpr ⟨p.2, by rwa [← this, Prod.mk.eta]⟩)

theorem dictLookup_isSome_mem {κ α : Type} [DecidableEq κ] {t : List (κ × α)}
    {k : κ} (h : (dictLookup t k).isSome) : k ∈ keysOf t := by
  by_contra hk
  rw [← dictLookup_eq_none] at hk
  rw [hk] at h
  exact absurd h (by simp)

theorem dictLookup_pop_self {κ α : Type} [DecidableEq κ] (t : List (κ × α))
    (k : κ) : dictLookup (dictPop t k) k = none := by
  unfold dictLookup dictPop
  rw [Option.map_eq_none', List.find?_eq_none]
  intro p hp
  rcases List.mem_filter.mp hp with ⟨_, h2⟩
  simpa using h2

theorem not_mem_keysOf_pop {κ α : Type} [DecidableEq κ] (t : List (κ × α))
    (k : κ) : k ∉ keysOf (dictPop t k) := by
  rw [← dictLookup_eq_none]
  exact dictLookup_pop_self t k

theorem mem_keysOf_pop {κ α : Type} [DecidableEq κ] {t : List (κ × α)}
    {k x : κ} (h : x ∈ keysOf (dictPop t k)) : x ∈ keysOf t := by
  obtain ⟨v, hv⟩ := mem_keysOf.mp h
  exact mem_keysOf.mpr ⟨v, (List.mem_filter.mp hv).1⟩

theorem find?_map_update {κ α : Type} [DecidableEq κ] (t : List (κ × α))
    (k : κ) (v : α) (h : t.any (fun p => decide (p.1 = k)) = true) :
    (t.map (fun p => if p.1 = k then (k, v) else p)).find?
      (fun p => decide (p.1 = k)) = some (k, v) := by
  induction t with
  | nil => simp at h
  | cons q rest ih =>
    by_cases hq : q.1 = k
    · simp [hq]
    · simp only [List.any_cons, Bool.or_eq_true, decide_eq_true_eq] at h
      rcases h with h | h
      · exact absurd h hq
      · simp only [List.map_cons, if_neg hq]
        rw [List.find?_cons_of_neg _ (by simpa using hq)]
        exact ih (List.any_eq_true.mpr (by
          obtain ⟨p, hp, hdec⟩ := List.any_eq_true.mp h
          exact ⟨p, hp, by simpa using hdec⟩))

theorem dictLookup_insert_self {κ α : Type} [DecidableEq κ]
    (t : List (κ × α)) (k : κ) (v : α) :
    dictLookup (dictInsert t k v) k = some v := by
  unfold dictInsert
  by_cases h : t.any (fun p => decide (p.1 = k)) = true
  · rw [if_pos h]
    unfold dictLookup
    rw [find?_map_update t k v h]
    rfl
  · rw [if_neg h]
    unfold dictLookup
    rw [List.find?_append]
    have hnone : t.find? (fun p => decide (p.1 = k)) = none := by
      rw [List.find?_eq_none]
      intro p hp hdec
      exact h (List.any_eq_true.mpr ⟨p, hp, hdec⟩)
    simp [hnone]

theorem mem_keysOf_insert_self {κ α : Type} [DecidableEq κ]
    (t : List (κ × α)) (k : κ) (v : α) : k ∈ keysOf (dictInsert t k v) := by
  have := dictLookup_insert_self t k v
  by_contra hk
  rw [← dictLookup_eq_none] at hk
  rw [hk] at this
  exact Option.noConfusion this

theorem mem_keysOf_insert {κ α : Type} [DecidableEq κ] {t : List (κ × α)}
    {k x : κ} {v : α} (h : x ∈ keysOf (dictInsert t k v)) :
    x ∈ keysOf t ∨ x = k := by
  unfold dictInsert at h
  by_cases hc : t.any (fun p => decide (p.1 = k)) = true
  · rw [if_pos hc] at h
    unfold keysOf at h ⊢
    rw [List.map_map] at h
    obtain ⟨p, hp, hpe⟩ := List.mem_map.mp h
    simp only [Function.comp] at hpe
    by_cases hpk : p.1 = k
    · rw [if_pos hpk] at hpe
      exact Or.inr hpe.symm
    · rw [if_neg hpk] at hpe
      exact Or.inl (List.mem_map.mpr ⟨p, hp, hpe⟩)
  · rw [if_neg hc] at h
    unfold keysOf at h ⊢
    rw [List.map_append] at h
    rcases List.mem_append.mp h with h1 | h1
    · exact Or.inl h1
    · right
      simpa using h1

/-! ### Easy per-operation facts -/

/-- A Hot hit returns the block's payload. -/
theorem cacheGet_of_l1 (P : Params) (c : HelixCache) (k : HKey)
    (b : CacheBlock) (h : dictLookup c.l1 k = some b) :
    (cacheGet P c k).1 = some b.data := by
  unfold cacheGet
  rw [h]
  rfl

/-- `put` leaves the fresh block under its key in Hot. -/
theorem cachePut_l1_lookup (P : Params) (c : HelixCache) (k : HKey)
    (d : Bytes) (size : Nat) :
    dictLookup (cachePut P c k d size).l1 k =
      some { data := d, tier := MemoryTier.l1Hot, sizeBytes := size } :=
  dictLookup_insert_self _ _ _

/-- Helper: a successful `malloc` is immediately readable (the fresh Hot
block is found first by `get`). -/
theorem malloc_read_roundtrip (P : Params) (m : HelixMemoryManager)
    (k : HKey) (d : Bytes) (h : (memMalloc P m k d).1 = true) :
    (memRead P (memMalloc P m k d).2 k).1 = some d := by
  by_cases hc : m.totalAllocated + (P.sizeOf d : Int) > m.maxVirtual
  · have hf : (memMalloc P m k d).1 = false := by
      unfold memMalloc
      rw [if_pos hc]
    rw [h] at hf
    exact Bool.noConfusion hf
  · have hm : (memMalloc P m k d).2.cache = cachePut P m.cache k d (P.sizeOf d) := by
      simp only [memMalloc]
      rw [if_neg hc]
    show (cacheGet P (memMalloc P m k d).2.cache k).1 = some d
    rw [hm]
    exact cacheGet_of_l1 P _ k _ (cachePut_l1_lookup P m.cache k d (P.sizeOf d))

/-- `free` on an allocated key: decrement, drop the record, purge all
tiers. -/
theorem memFree_snd_of_alloc (m : HelixMemoryManager) (k : HKey) (sOld : Nat)
    (ha : dictLookup m.allocations k = some sOld) :
    (memFree m k).2 =
      { m with totalAllocated := m.totalAllocated - (sOld : Int)
               allocations := dictPop m.allocations k
               cache := { m.cache with l1 := dictPop m.cache.l1 k
                                       l2 := dictPop m.cache.l2 k
                                       l3 := dictPop m.cache.l3 k } } := by
  unfold memFree
  rw [ha]

/-- `write` on an allocated key frees first. -/
theorem memWrite_eq_of_alloc (P : Params) (m : HelixMemoryManager)
    (k : HKey) (d : Bytes) (sOld : Nat)
    (ha : dictLookup m.allocations k = some sOld) :
    memWrite P m k d = memMalloc P (memFree m k).2 k d := by
  unfold memWrite
  rw [ha]
  rfl

/-- An over-budget `malloc` rejects with no state change. -/
theorem memMalloc_fail (P : Params) (m : HelixMemoryManager) (k : HKey)
    (d : Bytes) (h : m.totalAllocated + (P.sizeOf d : Int) > m.maxVirtual) :
    memMalloc P m k d = (false, m) := by
  unfold memMalloc
  rw [if_pos h]

/-- A key absent from all three tiers misses. -/
theorem cacheGet_none (P : Params) (c : HelixCache) (k : HKey)
    (h1 : dictLookup c.l1 k = none) (h2 : dictLookup c.l2 k = none)
    (h3 : dictLookup c.l3 k = none) : (cacheGet P c k).1 = none := by
  simp only [cacheGet, h1, h2, h3]

/-- C5: an over-budget `malloc` returns `false` and leaves the allocator
(`total_allocated`, the allocation table) and all three cache tiers
untouched: the whole state is returned unchanged. -/
theorem C5_budget_reject (P : Params) (m : HelixMemoryManager) (k : HKey)
    (d : Bytes)
    (h : m.totalAllocated + (P.sizeOf d : Int) > m.maxVirtual) :
    memMalloc P m k d = (false, m) :=
  memMalloc_fail P m k d h

/-- Witness for C5 at a concrete over-budget call. -/
theorem C5_budget_reject_witness :
    memMalloc pLen (initMem (initCache 1 1 1) 0) (HKey.user "k") [0] =
      (false, initMem (initCache 1 1 1) 0) :=
  C5_budget_reject pLen (initMem (initCache 1 1 1) 0) (HKey.user "k") [0]
    (by decide)

/-- C6: if `malloc(key, data)` succeeds then an immediately following
`read(key)` returns `data` unchanged (the fresh block sits in Hot and `get`
checks Hot first); the serialized-size bound of the claim is recorded as a
hypothesis. -/
theorem C6_roundtrip (P : Params) (m : HelixMemoryManager) (k : HKey)
    (d : Bytes) (_hsize : P.sizeOf d ≤ m.cache.l1Max)
    (h : (memMalloc P m k d).1 = true) :
    (memRead P (memMalloc P m k d).2 k).1 = some d :=
  malloc_read_roundtrip P m k d h

/-- Witness for C6 at a concrete allocation. -/
theorem C6_roundtrip_witness :
    (memRead pLen
      (memMalloc pLen (initMem (initCache 1 1 1) 8192) (HKey.user "k") [7]).2
      (HKey.user "k")).1 = some [7] :=
  C6_roundtrip pLen (initMem (initCache 1 1 1) 8192) (HKey.user "k") [7]
    (by decide) (by decide)

/-- C10: a `write(key, data)` whose re-allocation would exceed the budget
returns `false` and leaves the key fully deallocated: the allocation record
and all three tier entries are gone, `total_allocated` dropped by the old
size, and a subsequent `read(key)` misses. -/
theorem C10_failed_write_destroys (P : Params) (m : HelixMemoryManager)
    (k : HKey) (d : Bytes) (sOld : Nat)
    (ha : dictLookup m.allocations k = some sOld)
    (hb : m.totalAllocated - (sOld : Int) + (P.sizeOf d : Int) > m.maxVirtual) :
    (memWrite P m k d).1 = false ∧
    dictLookup (memWrite P m k d).2.allocations k = none ∧
    k ∉ keysOf (memWrite P m k d).2.cache.l1 ∧
    k ∉ keysOf (memWrite P m k d).2.cache.l2 ∧
    k ∉ keysOf (memWrite P m k d).2.cache.l3 ∧
    (memWrite P m k d).2.totalAllocated = m.totalAllocated - (sOld : Int) ∧
    (memRead P (memWrite P m k d).2 k).1 = none := by
  have h2 := memWrite_eq_of_alloc P m k d sOld ha
  have hF := memFree_snd_of_alloc m k sOld ha
  have hcond : (memFree m k).2.totalAllocated + (P.sizeOf d : Int) >
      (memFree m k).2.maxVirtual := by
    rw [hF]
    exact hb
  have h3 : memMalloc P (memFree m k).2 k d = (false, (memFree m k).2) :=
    memMalloc_fail P (memFree m k).2 k d hcond
  rw [h2, h3, hF]
  refine ⟨rfl, dictLookup_pop_self _ _, not_mem_keysOf_pop _ _,
    not_mem_keysOf_pop _ _, not_mem_keysOf_pop _ _, rfl, ?_⟩
  exact cacheGet_none P _ k (dictLookup_pop_self _ _)
    (dictLookup_pop_self _ _) (dictLookup_pop_self _ _)

/-- Witness for C10: a 1-byte allocation overwritten by a 2 MB value under
a 1 MB budget. -/
theorem C10_failed_write_destroys_witness :
    ((memWrite pBig
        (memMalloc pLen (initMem (initCache 1 1 1) 1) (HKey.user "k") [7]).2
        (HKey.user "k") []).1 = false) ∧
    ((memRead pBig
        (memWrite pBig
          (memMalloc pLen (initMem (initCache 1 1 1) 1) (HKey.user "k") [7]).2
          (HKey.user "k") []).2 (HKey.user "k")).1 = none) := by
  have h := C10_failed_write_destroys pBig
    (memMalloc pLen (initMem (initCache 1 1 1) 1) (HKey.user "k") [7]).2
    (HKey.user "k") [] 1 (by decide) (by decide)
  exact ⟨h.1, h.2.2.2.2.2.2⟩

/-- C1 counterexample: a state (reached from empty by public operations)
whose key `"k"` is Warm-resident with `access_count == 3`; the next `get`
hit promotes it to Hot, contradicting the claimed strict-greater-than-3
boundary on the pre-hit count (the source increments before testing). -/
theorem C1_counterexample :
    (dictLookup c1Warm3.cache.l2 (HKey.user "k")).map CacheBlock.accessCount =
      some 3 ∧
    HKey.user "k" ∈ keysOf (memStep pLen c1Warm3 (MemOp.get (HKey.user "k"))).cache.l1 ∧
    HKey.user "k" ∉ keysOf (memStep pLen c1Warm3 (MemOp.get (HKey.user "k"))).cache.l2 := by
  decide

/-- C2 counterexample: from the empty cache, a single `put` of a block
larger than the Hot capacity leaves the Hot tier over its capacity (the
make-room loop stops once the tier is empty and inserts anyway). -/
theorem C2_counterexample :
    ¬ (getTierSize (memRun pLen (initMem (initCache 1 1 1) 8192)
          [MemOp.put (HKey.user "k") [] (2 * 1024 * 1024)]).cache.l1 ≤
        (memRun pLen (initMem (initCache 1 1 1) 8192)
          [MemOp.put (HKey.user "k") [] (2 * 1024 * 1024)]).cache.l1Max) := by
  decide

/-- C3 counterexample: `put` on a key already Hot-resident, under Hot
capacity pressure, demotes the key's old block to Warm and then inserts the
new block in Hot — the key ends up in two tiers simultaneously. -/
theorem C3_counterexample :
    (dictLookup c3Dup.cache.l1 (HKey.user "k")).isSome ∧
    (dictLookup c3Dup.cache.l2 (HKey.user "k")).isSome := by
  decide

/-- C4 counterexample: after four sequential 2 MB `malloc`s against 1 MB
tiers, the first key has been evicted from the Compressed tier but its
allocation record survives — the allocation table is not a subset of the
resident keys. -/
theorem C4_counterexample :
    (dictLookup c4Evict.allocations (HKey.user "k1")).isSome ∧
    HKey.user "k1" ∉ keysOf c4Evict.cache.l1 ∧
    HKey.user "k1" ∉ keysOf c4Evict.cache.l2 ∧
    HKey.user "k1" ∉ keysOf c4Evict.cache.l3 ∧
    c4Evict.cache.stats.evictions = 1 := by
  decide

/-- C7 counterexample: writing `b"XY"` at offset 6 into a 4-byte buffer
succeeds but appends at position 4 (Python slice assignment clamps the
indices), so the bytes at positions `[6, 8)` are not the written data and
the buffer grew to 6 bytes, not 8. -/
theorem C7_counterexample :
    t7BadWrite.1 = true ∧
    (memRead pLen t7BadWrite.2.fs.memory (HKey.mem 268435456 4)).1 =
      some [0, 0, 0, 0, 88, 89] ∧
    ¬ ((([0, 0, 0, 0, 88, 89] : Bytes).drop 6).take 2 = [88, 89]) := by
  decide

/-- C8 counterexample: opening the same path twice yields two
simultaneously active descriptors (1000 and 1001) mapped to the same path
slot. -/
theorem C8_counterexample :
    dictLookup t8TwoOpens.fdToPath 1000 = some "a" ∧
    dictLookup t8TwoOpens.fdToPath 1001 = some "a" ∧
    (1000 : Nat) ≠ 1001 := by
  decide

/-- C9: the public API is not total — `translate_close` raises an uncaught
`KeyError`.  Opening the same path twice and closing both descriptors: the
first close succeeds (and removes the shared reverse `path -> fd` entry),
the second reaches the unguarded `del path_to_fd[filepath]` and raises. -/
theorem C9_close_uncaught_keyerror :
    tRun pLen (initTranslator 512 2048 6000 8096)
        [TOp.topen "a", TOp.topen "a", TOp.tclose 1000] ≠ none ∧
    tRun pLen (initTranslator 512 2048 6000 8096)
        [TOp.topen "a", TOp.topen "a", TOp.tclose 1000, TOp.tclose 1001] =
      none := by
  decide

/-! ### Key-provenance lemmas for the demotion/promotion cascades -/

theorem dictLookup_pop_append {κ α : Type} [DecidableEq κ]
    (t : List (κ × α)) (k : κ) (v : α) :
    dictLookup (dictPop t k ++ [(k, v)]) k = some v := by
  unfold dictLookup
  rw [List.find?_append]
  have hnone : (dictPop t k).find? (fun p => decide (p.1 = k)) = none := by
    rw [List.find?_eq_none]
    intro p hp
    rcases List.mem_filter.mp hp with ⟨_, h2⟩
    simpa using h2
  simp [hnone]

theorem makeRoomL3Go_keys {l3Max needed : Nat} {t : Tier} {x : HKey}
    (h : x ∈ keysOf (makeRoomL3Go l3Max needed t).1) : x ∈ keysOf t := by
  induction t with
  | nil => simpa [makeRoomL3Go] using h
  | cons p rest ih =>
    rw [makeRoomL3Go] at h
    by_cases hc : getTierSize (p :: rest) + needed > l3Max
    · rw [if_pos hc] at h
      unfold keysOf
      exact List.mem_map.mpr (by
        obtain ⟨q, hq, hqe⟩ := List.mem_map.mp (ih h)
        exact ⟨q, List.mem_cons_of_mem p hq, hqe⟩)
    · rw [if_neg hc] at h
      exact h

theorem makeRoomL3_l1 (c : HelixCache) (n : Nat) :
    (makeRoomL3 c n).l1 = c.l1 := rfl

theorem makeRoomL3_l2 (c : HelixCache) (n : Nat) :
    (makeRoomL3 c n).l2 = c.l2 := rfl

theorem makeRoomL3_l3_keys {c : HelixCache} {n : Nat} {x : HKey}
    (h : x ∈ keysOf (makeRoomL3 c n).l3) : x ∈ keysOf c.l3 :=
  makeRoomL3Go_keys h

theorem demoteToL3_l1 (P : Params) (c : HelixCache) (k : HKey)
    (b : CacheBlock) : (demoteToL3 P c k b).l1 = c.l1 := by
  simp only [demoteToL3, makeRoomL3]
  split <;> rfl

theorem demoteToL3_l2 (P : Params) (c : HelixCache) (k : HKey)
    (b : CacheBlock) : (demoteToL3 P c k b).l2 = dictPop c.l2 k := by
  simp only [demoteToL3, makeRoomL3]
  split <;> rfl

theorem demoteToL3_l3_keys {P : Params} {c : HelixCache} {k : HKey}
    {b : CacheBlock} {x : HKey}
    (h : x ∈ keysOf (demoteToL3 P c k b).l3) : x ∈ keysOf c.l3 ∨ x = k := by
  have hmem : x ∈ keysOf (dictInsert (makeRoomL3
      (if (CacheBlock.compressB P b).2 > 0 then
        { c with l2 := dictPop c.l2 k
                 stats := { c.stats with
                   compressions := c.stats.compressions + 1 } }
       else { c with l2 := dictPop c.l2 k })
      (match (CacheBlock.compressB P b).1.compressedData with
        | some cd => if cd.isEmpty then (CacheBlock.compressB P b).1.sizeBytes
                     else cd.length
        | none => (CacheBlock.compressB P b).1.sizeBytes)).l3 k
      { (CacheBlock.compressB P b).1 with tier := MemoryTier.l3Compressed }) := by
    revert h
    simp only [demoteToL3]
    split <;> intro h <;> exact h
  rcases mem_keysOf_insert hmem with h1 | h1
  · left
    have := makeRoomL3_l3_keys h1
    revert this
    split <;> intro this <;> exact this
  · exact Or.inr h1

theorem makeRoomL2Fuel_l1 (P : Params) (needed : Nat) :
    ∀ (fuel : Nat) (c : HelixCache),
      (makeRoomL2Fuel P needed fuel c).l1 = c.l1 := by
  intro fuel
  induction fuel with
  | zero => intro c; rfl
  | succ n ih =>
    intro c
    rw [makeRoomL2Fuel]
    split
    · rfl
    · split
      · rename_i k0 b0 rest heq hc
        rw [ih, demoteToL3_l1]
      · rfl

theorem makeRoomL2Fuel_l2_keys (P : Params) (needed : Nat) :
    ∀ (fuel : Nat) (c : HelixCache) (x : HKey),
      x ∈ keysOf (makeRoomL2Fuel P needed fuel c).l2 → x ∈ keysOf c.l2 := by
  intro fuel
  induction fuel with
  | zero => intro c x h; exact h
  | succ n ih =>
    intro c x h
    rw [makeRoomL2Fuel] at h
    revert h
    split
    · exact fun h => h
    · split
      · rename_i k0 b0 rest heq hc
        intro h
        have h1 := ih _ x h
        rw [demoteToL3_l2] at h1
        exact mem_keysOf_pop h1
      · exact fun h => h

theorem makeRoomL2Fuel_l3_keys (P : Params) (needed : Nat) :
    ∀ (fuel : Nat) (c : HelixCache) (x : HKey),
      x ∈ keysOf (makeRoomL2Fuel P needed fuel c).l3 →
      x ∈ keysOf c.l3 ∨ x ∈ keysOf c.l2 := by
  intro fuel
  induction fuel with
  | zero => intro c x h; exact Or.inl h
  | succ n ih =>
    intro c x h
    rw [makeRoomL2Fuel] at h
    revert h
    split
    · exact fun h => Or.inl h
    · split
      · rename_i k0 b0 rest heq hc
        intro h
        rcases ih _ x h with h1 | h1
        · rcases demoteToL3_l3_keys h1 with h2 | h2
          · exact Or.inl h2
          · right
            rw [h2, heq]
            exact List.mem_map.mpr ⟨(k0, b0), List.mem_cons_self _ _, rfl⟩
        · rw [demoteToL3_l2] at h1
          exact Or.inr (mem_keysOf_pop h1)
      · exact fun h => Or.inl h

theorem makeRoomL2_l1 (P : Params) (c : HelixCache) (needed : Nat) :
    (makeRoomL2 P c needed).l1 = c.l1 :=
  makeRoomL2Fuel_l1 P needed (c.l2.length + 1) c

theorem makeRoomL2_l2_keys (P : Params) (c : HelixCache) (needed : Nat)
    {x : HKey} (h : x ∈ keysOf (makeRoomL2 P c needed).l2) :
    x ∈ keysOf c.l2 :=
  makeRoomL2Fuel_l2_keys P needed (c.l2.length + 1) c x h

theorem makeRoomL2_l3_keys (P : Params) (c : HelixCache) (needed : Nat)
    {x : HKey} (h : x ∈ keysOf (makeRoomL2 P c needed).l3) :
    x ∈ keysOf c.l3 ∨ x ∈ keysOf c.l2 :=
  makeRoomL2Fuel_l3_keys P needed (c.l2.length + 1) c x h

theorem demoteToL2_l1 (P : Params) (c : HelixCache) (k : HKey)
    (b : CacheBlock) : (demoteToL2 P c k b).l1 = dictPop c.l1 k := by
  show (makeRoomL2 P { c with l1 := dictPop c.l1 k } b.sizeBytes).l1 =
    dictPop c.l1 k
  exact makeRoomL2_l1 P { c with l1 := dictPop c.l1 k } b.sizeBytes

theorem demoteToL2_l2_keys {P : Params} {c : HelixCache} {k : HKey}
    {b : CacheBlock} {x : HKey}
    (h : x ∈ keysOf (demoteToL2 P c k b).l2) : x ∈ keysOf c.l2 ∨ x = k := by
  have h1 : x ∈ keysOf (dictInsert
      (makeRoomL2 P { c with l1 := dictPop c.l1 k } b.sizeBytes).l2 k
      { b with tier := MemoryTier.l2Warm }) := h
  rcases mem_keysOf_insert h1 with h2 | h2
  · exact Or.inl (makeRoomL2_l2_keys P { c with l1 := dictPop c.l1 k }
      b.sizeBytes h2)
  · exact Or.inr h2

theorem demoteToL2_l3_keys {P : Params} {c : HelixCache} {k : HKey}
    {b : CacheBlock} {x : HKey}
    (h : x ∈ keysOf (demoteToL2 P c k b).l3) :
    x ∈ keysOf c.l3 ∨ x ∈ keysOf c.l2 := by
  have h1 : x ∈ keysOf
      (makeRoomL2 P { c with l1 := dictPop c.l1 k } b.sizeBytes).l3 := h
  exact makeRoomL2_l3_keys P { c with l1 := dictPop c.l1 k } b.sizeBytes h1

theorem makeRoomL1Fuel_l1_keys (P : Params) (needed : Nat) :
    ∀ (fuel : Nat) (c : HelixCache) (x : HKey),
      x ∈ keysOf (makeRoomL1Fuel P needed fuel c).l1 → x ∈ keysOf c.l1 := by
  intro fuel
  induction fuel with
  | zero => intro c x h; exact h
  | succ n ih =>
    intro c x h
    rw [makeRoomL1Fuel] at h
    revert h
    split
    · exact fun h => h
    · split
      · rename_i k0 b0 rest heq hc
        intro h
        have h1 := ih _ x h
        rw [demoteToL2_l1] at h1
        exact mem_keysOf_pop h1
      · exact fun h => h

theorem makeRoomL1Fuel_l2_keys (P : Params) (needed : Nat) :
    ∀ (fuel : Nat) (c : HelixCache) (x : HKey),
      x ∈ keysOf (makeRoomL1Fuel P needed fuel c).l2 →
      x ∈ keysOf c.l2 ∨ x ∈ keysOf c.l1 := by
  intro fuel
  induction fuel with
  | zero => intro c x h; exact Or.inl h
  | succ n ih =>
    intro c x h
    rw [makeRoomL1Fuel] at h
    revert h
    split
    · exact fun h => Or.inl h
    · split
      · rename_i k0 b0 rest heq hc
        intro h
        rcases ih _ x h with h1 | h1
        · rcases demoteToL2_l2_keys h1 with h2 | h2
          · exact Or.inl h2
          · right
            rw [h2, heq]
            exact List.mem_map.mpr ⟨(k0, b0), List.mem_cons_self _ _, rfl⟩
        · rw [demoteToL2_l1] at h1
          exact Or.inr (mem_keysOf_pop h1)
      · exact fun h => Or.inl h

theorem makeRoomL1Fuel_l3_keys (P : Params) (needed : Nat) :
    ∀ (fuel : Nat) (c : HelixCache) (x : HKey),
      x ∈ keysOf (makeRoomL1Fuel P needed fuel c).l3 →
      x ∈ keysOf c.l3 ∨ x ∈ keysOf c.l2 ∨ x ∈ keysOf c.l1 := by
  intro fuel
  induction fuel with
  | zero => intro c x h; exact Or.inl h
  | succ n ih =>
    intro c x h
    rw [makeRoomL1Fuel] at h
    revert h
    split
    · exact fun h => Or.inl h
    · split
      · rename_i k0 b0 rest heq hc
        intro h
        rcases ih _ x h with h1 | h1 | h1
        · rcases demoteToL2_l3_keys h1 with h2 | h2
          · exact Or.inl h2
          · exact Or.inr (Or.inl h2)
        · rcases demoteToL2_l2_keys h1 with h2 | h2
          · exact Or.inr (Or.inl h2)
          · refine Or.inr (Or.inr ?_)
            rw [h2, heq]
            exact List.mem_map.mpr ⟨(k0, b0), List.mem_cons_self _ _, rfl⟩
        · rw [demoteToL2_l1] at h1
          exact Or.inr (Or.inr (mem_keysOf_pop h1))
      · exact fun h => Or.inl h

theorem makeRoomL1_l1_keys (P : Params) (c : HelixCache) (needed : Nat)
    {x : HKey} (h : x ∈ keysOf (makeRoomL1 P c needed).l1) :
    x ∈ keysOf c.l1 :=
  makeRoomL1Fuel_l1_keys P needed (c.l1.length + 1) c x h

theorem makeRoomL1_l2_keys (P : Params) (c : HelixCache) (needed : Nat)
    {x : HKey} (h : x ∈ keysOf (makeRoomL1 P c needed).l2) :
    x ∈ keysOf c.l2 ∨ x ∈ keysOf c.l1 :=
  makeRoomL1Fuel_l2_keys P needed (c.l1.length + 1) c x h

theorem makeRoomL1_l3_keys (P : Params) (c : HelixCache) (needed : Nat)
    {x : HKey} (h : x ∈ keysOf (makeRoomL1 P c needed).l3) :
    x ∈ keysOf c.l3 ∨ x ∈ keysOf c.l2 ∨ x ∈ keysOf c.l1 :=
  makeRoomL1Fuel_l3_keys P needed (c.l1.length + 1) c x h

theorem promoteToL1_mem_l1 (P : Params) (c : HelixCache) (k : HKey)
    (b : CacheBlock) : k ∈ keysOf (promoteToL1 P c k b).l1 :=
  mem_keysOf_insert_self _ _ _

theorem promoteToL1_l2_keys {P : Params} {c : HelixCache} {k : HKey}
    {b : CacheBlock} {x : HKey}
    (h : x ∈ keysOf (promoteToL1 P c k b).l2) :
    x ∈ keysOf (dictPop c.l2 k) ∨ x ∈ keysOf c.l1 := by
  have h1 : x ∈ keysOf
      (makeRoomL1 P { c with l2 := dictPop c.l2 k } b.sizeBytes).l2 := h
  exact makeRoomL1_l2_keys P { c with l2 := dictPop c.l2 k } b.sizeBytes h1

/-- C1 (amended): the Warm-to-Hot boundary sits one hit earlier than
claimed, because `get` increments the access count before testing
`access_count > 3`: a Warm hit promotes exactly when the pre-hit count is
at least 3 (post-increment strictly greater than 3); a pre-hit count of 2
or less only refreshes recency in place. -/
theorem C1_warm_promotion_boundary (P : Params) (c : HelixCache) (k : HKey)
    (b : CacheBlock) (h1 : dictLookup c.l1 k = none)
    (h2 : dictLookup c.l2 k = some b) :
    (3 ≤ b.accessCount →
      k ∈ keysOf (cacheGet P c k).2.l1 ∧ k ∉ keysOf (cacheGet P c k).2.l2) ∧
    (b.accessCount < 3 →
      k ∉ keysOf (cacheGet P c k).2.l1 ∧
      dictLookup (cacheGet P c k).2.l2 k = some b.access) := by
  simp only [cacheGet, h1, h2]
  have hacc : b.access.accessCount = b.accessCount + 1 := rfl
  by_cases hcnt : b.access.accessCount > 3
  · rw [if_pos hcnt]
    constructor
    · intro _
      constructor
      · exact promoteToL1_mem_l1 P _ k b.access
      · intro hmem
        rcases promoteToL1_l2_keys hmem with hA | hA
        · exact not_mem_keysOf_pop _ _ hA
        · exact (dictLookup_eq_none.mp h1) hA
    · intro hlt
      rw [hacc] at hcnt
      exact absurd hcnt (by omega)
  · rw [if_neg hcnt]
    constructor
    · intro hge
      rw [hacc] at hcnt
      exact absurd hge (by omega)
    · intro _
      exact ⟨dictLookup_eq_none.mp h1, dictLookup_pop_append _ k b.access⟩

/-- Witness for C1 (amended) at the concrete Warm-resident block with
pre-hit access count 3: the hit promotes. -/
theorem C1_warm_promotion_boundary_witness :
    HKey.user "k" ∈ keysOf (cacheGet pLen c1Warm3.cache (HKey.user "k")).2.l1 ∧
    HKey.user "k" ∉ keysOf (cacheGet pLen c1Warm3.cache (HKey.user "k")).2.l2 :=
  (C1_warm_promotion_boundary pLen c1Warm3.cache (HKey.user "k")
      { data := [], tier := MemoryTier.l2Warm, sizeBytes := 614400,
        accessCount := 3 }
      (by decide) (by decide)).1 (by decide)

/-- For an in-bounds offset, Python slice assignment is a genuine splice. -/
theorem spliceAssign_eq (bs data : Bytes) (offset : Nat)
    (hoff : offset ≤ bs.length) :
    spliceAssign bs offset data =
      bs.take offset ++ data ++ bs.drop (offset + data.length) := by
  unfold spliceAssign
  rw [Nat.min_eq_left hoff]
  by_cases h : offset + data.length ≤ bs.length
  · rw [Nat.min_eq_left h]
  · rw [Nat.min_eq_right (by omega : bs.length ≤ offset + data.length)]
    rw [List.drop_length, List.drop_eq_nil_of_le (by omega)]

/-- The spliced buffer holds `data` at positions `[offset, offset+|data|)`. -/
theorem splice_slice (bs data : Bytes) (offset : Nat)
    (hoff : offset ≤ bs.length) :
    ((bs.take offset ++ data ++ bs.drop (offset + data.length)).drop
        offset).take data.length = data := by
  have hlen : (bs.take offset).length = offset := by
    rw [List.length_take]
    omega
  rw [List.append_assoc, List.drop_left' hlen, List.take_left' rfl]

/-- The spliced buffer grows exactly to `max |bs| (offset+|data|)`. -/
theorem splice_length (bs data : Bytes) (offset : Nat)
    (_hoff : offset ≤ bs.length) :
    (bs.take offset ++ data ++ bs.drop (offset + data.length)).length =
      max bs.length (offset + data.length) := by
  simp only [List.length_append, List.length_take, List.length_drop]
  omega

/-- A `write` whose re-allocation fits the budget succeeds and is
immediately readable. -/
theorem memWrite_success (P : Params) (m : HelixMemoryManager) (k : HKey)
    (d : Bytes) (sOld : Nat)
    (ha : dictLookup m.allocations k = some sOld)
    (hb : m.totalAllocated - (sOld : Int) + (P.sizeOf d : Int) ≤
      m.maxVirtual) :
    (memWrite P m k d).1 = true ∧
    (memRead P (memWrite P m k d).2 k).1 = some d := by
  rw [memWrite_eq_of_alloc P m k d sOld ha]
  have hF := memFree_snd_of_alloc m k sOld ha
  have hcond : ¬ ((memFree m k).2.totalAllocated + (P.sizeOf d : Int) >
      (memFree m k).2.maxVirtual) := by
    rw [hF]
    show ¬ (m.totalAllocated - (sOld : Int) + (P.sizeOf d : Int) >
      m.maxVirtual)
    omega
  have hsucc : (memMalloc P (memFree m k).2 k d).1 = true := by
    unfold memMalloc
    rw [if_neg hcond]
  exact ⟨hsucc, malloc_read_roundtrip P _ k d hsucc⟩

/-- C7 (amended): for an active pointer whose current buffer is `bs` and an
offset at most `|bs|` (the counterexample forces this bound: beyond the end
Python slice assignment appends at the end instead), `translate_write`
splices `data` into the buffer at `offset`, growing it to
`max |bs| (offset+|data|)`, writes the whole buffer back, and a following
`translate_read` at the same offset returns `data`. -/
theorem C7_offset_write_splices (P : Params) (t : HelixTranslator)
    (ptr : Nat) (entry : TranslationEntry) (data bs : Bytes)
    (offset sOld : Nat)
    (hptr : dictLookup t.ptrToKey ptr = some entry)
    (hread : (memRead P t.fs.memory entry.helixKey).1 = some bs)
    (hne : bs ≠ [])
    (hoff : offset ≤ bs.length)
    (halloc : dictLookup t.fs.memory.allocations entry.helixKey = some sOld)
    (hbudget : t.fs.memory.totalAllocated - (sOld : Int) +
        (P.sizeOf (spliceAssign bs offset data) : Int) ≤
        t.fs.memory.maxVirtual) :
    (translateWrite P t ptr data offset).1 = true ∧
    (memRead P (translateWrite P t ptr data offset).2.fs.memory
        entry.helixKey).1 =
      some (bs.take offset ++ data ++ bs.drop (offset + data.length)) ∧
    ((bs.take offset ++ data ++ bs.drop (offset + data.length)).drop
        offset).take data.length = data ∧
    (bs.take offset ++ data ++ bs.drop (offset + data.length)).length =
      max bs.length (offset + data.length) ∧
    (translateRead P (translateWrite P t ptr data offset).2 ptr data.length
        offset).1 = some data := by
  have hbuf := spliceAssign_eq bs data offset hoff
  have hw := memWrite_success P (memRead P t.fs.memory entry.helixKey).2
    entry.helixKey (spliceAssign bs offset data) sOld halloc hbudget
  have hstep : translateWrite P t ptr data offset =
      ((memWrite P (memRead P t.fs.memory entry.helixKey).2 entry.helixKey
          (spliceAssign bs offset data)).1,
       { t with ptrToKey := dictInsert t.ptrToKey ptr entry.accessT
                fs := { t.fs with memory :=
                  (memWrite P (memRead P t.fs.memory entry.helixKey).2
                    entry.helixKey (spliceAssign bs offset data)).2 } }) := by
    simp only [translateWrite, hptr, hread]
    rw [List.isEmpty_eq_false.mpr hne]
    rfl
  refine ⟨?_, ?_, splice_slice bs data offset hoff,
    splice_length bs data offset hoff, ?_⟩
  · rw [hstep]
    exact hw.1
  · rw [hstep]
    show (memRead P (memWrite P (memRead P t.fs.memory entry.helixKey).2
        entry.helixKey (spliceAssign bs offset data)).2 entry.helixKey).1 =
      some (bs.take offset ++ data ++ bs.drop (offset + data.length))
    rw [hw.2, hbuf]
  · rw [hstep]
    simp only [translateRead, dictLookup_insert_self,
      TranslationEntry.accessT]
    simp only [hw.2]
    rw [hbuf]
    rw [splice_slice bs data offset hoff]

/-- Witness for C7 (amended): the spec's concrete example — write `b"XY"`
at offset 2 into a 4-byte zeroed buffer, then read 2 bytes at offset 2. -/
theorem C7_offset_write_splices_witness :
    (translateWrite pLen t7Base 268435456 [88, 89] 2).1 = true ∧
    (translateRead pLen (translateWrite pLen t7Base 268435456 [88, 89] 2).2
        268435456 2 2).1 = some [88, 89] := by
  have h := C7_offset_write_splices pLen t7Base 268435456
    { appPointer := 268435456, helixKey := HKey.mem 268435456 4, size := 4 }
    [88, 89] [0, 0, 0, 0] 2 4 (by decide) (by decide) (by decide) (by decide)
    (by decide) (by decide)
  exact ⟨h.1, h.2.2.2.2⟩

/-! ### Translator handle invariant (C8) -/

theorem mem_dictPop {κ α : Type} [DecidableEq κ] {t : List (κ × α)} {k : κ}
    {p : κ × α} (h : p ∈ dictPop t k) : p ∈ t :=
  (List.mem_filter.mp h).1

theorem mem_dictInsert {κ α : Type} [DecidableEq κ] {t : List (κ × α)}
    {k : κ} {v : α} {p : κ × α} (h : p ∈ dictInsert t k v) :
    p ∈ t ∨ p = (k, v) := by
  unfold dictInsert at h
  by_cases hc : t.any (fun p => decide (p.1 = k)) = true
  · rw [if_pos hc] at h
    obtain ⟨q, hq, hqe⟩ := List.mem_map.mp h
    by_cases hqk : q.1 = k
    · rw [if_pos hqk] at hqe
      exact Or.inr hqe.symm
    · rw [if_neg hqk] at hqe
      exact Or.inl (hqe ▸ hq)
  · rw [if_neg hc] at h
    rcases List.mem_append.mp h with h1 | h1
    · exact Or.inl h1
    · exact Or.inr (List.mem_singleton.mp h1)

theorem dictLookup_mem {κ α : Type} [DecidableEq κ] {t : List (κ × α)}
    {k : κ} {v : α} (h : dictLookup t k = some v) : (k, v) ∈ t := by
  unfold dictLookup at h
  cases hf : t.find? (fun p => decide (p.1 = k)) with
  | none => rw [hf] at h; exact Option.noConfusion h
  | some p =>
    rw [hf] at h
    have hpm := List.mem_of_find?_eq_some hf
    have hpk : p.1 = k := by simpa using List.find?_some hf
    have hpv : p.2 = v := Option.some.injEq _ _ ▸ h
    have : p = (k, v) := Prod.ext hpk hpv
    exact this ▸ hpm

theorem TInv_translateMalloc (P : Params) (t : HelixTranslator) (size : Nat)
    (h : TInv t) : TInv (translateMalloc P t size).2 := by
  simp only [translateMalloc]
  cases hr : (memMalloc P t.fs.memory (HKey.mem t.nextFakePointer size)
      (List.replicate size 0)).1
  case false =>
    exact ⟨fun p hp => h.1 p hp, fun q hq => h.2 q hq⟩
  case true =>
    refine ⟨fun p hp => ?_, fun q hq => h.2 q hq⟩
    have hp' : p ∈ dictInsert t.ptrToKey t.nextFakePointer
        { appPointer := t.nextFakePointer,
          helixKey := HKey.mem t.nextFakePointer size, size := size } := hp
    rcases mem_dictInsert hp' with h1 | h1
    · have hm := h.1 p h1
      refine ⟨?_, hm.2⟩
      show p.1 < t.nextFakePointer + 0x1000
      omega
    · subst h1
      refine ⟨?_, rfl⟩
      show t.nextFakePointer < t.nextFakePointer + 0x1000
      omega

theorem TInv_translateFree (t : HelixTranslator) (ptr : Nat)
    (t' : HelixTranslator) (h : TInv t)
    (hs : (translateFree t ptr).map Prod.snd = some t') : TInv t' := by
  unfold translateFree at hs
  cases hl : dictLookup t.ptrToKey ptr with
  | none =>
    simp only [hl, Option.map_some'] at hs
    injection hs with hs
    exact hs ▸ h
  | some entry =>
    simp only [hl] at hs
    by_cases hk : (dictLookup t.keyToPtr entry.helixKey).isSome = true
    · rw [if_pos hk] at hs
      simp only [Option.map_some'] at hs
      injection hs with hs
      subst hs
      exact ⟨fun p hp => h.1 p (mem_dictPop hp), fun q hq => h.2 q hq⟩
    · rw [if_neg hk] at hs
      exact Option.noConfusion hs

theorem TInv_translateRead (P : Params) (t : HelixTranslator)
    (ptr size offset : Nat) (h : TInv t) :
    TInv (translateRead P t ptr size offset).2 := by
  unfold translateRead
  cases hl : dictLookup t.ptrToKey ptr with
  | none =>
    simp only [hl]
    exact h
  | some entry =>
    simp only [hl]
    have hinv : ∀ p ∈ dictInsert t.ptrToKey ptr entry.accessT,
        p.1 < t.nextFakePointer ∧ p.2.helixKey = HKey.mem p.1 p.2.size := by
      intro p hp
      rcases mem_dictInsert hp with h1 | h1
      · exact h.1 p h1
      · have hm := h.1 (ptr, entry) (dictLookup_mem hl)
        subst h1
        exact ⟨hm.1, hm.2⟩
    cases hrd : (memRead P t.fs.memory entry.helixKey).1 with
    | none =>
      simp only [hrd]
      exact ⟨hinv, fun q hq => h.2 q hq⟩
    | some data =>
      simp only [hrd]
      exact ⟨hinv, fun q hq => h.2 q hq⟩

theorem TInv_translateWrite (P : Params) (t : HelixTranslator) (ptr : Nat)
    (data : Bytes) (offset : Nat) (h : TInv t) :
    TInv (translateWrite P t ptr data offset).2 := by
  unfold translateWrite
  cases hl : dictLookup t.ptrToKey ptr with
  | none =>
    simp only [hl]
    exact h
  | some entry =>
    simp only [hl]
    refine ⟨fun p hp => ?_, fun q hq => h.2 q hq⟩
    have hp' : p ∈ dictInsert t.ptrToKey ptr entry.accessT := hp
    rcases mem_dictInsert hp' with h1 | h1
    · exact h.1 p h1
    · have hm := h.1 (ptr, entry) (dictLookup_mem hl)
      subst h1
      exact ⟨hm.1, hm.2⟩

theorem TInv_translateOpen (t : HelixTranslator) (path : String)
    (h : TInv t) : TInv (translateOpen t path).2 := by
  refine ⟨fun p hp => h.1 p hp, fun q hq => ?_⟩
  have hq' : q ∈ dictInsert t.fdToPath t.nextFakeFd path := hq
  rcases mem_dictInsert hq' with h1 | h1
  · have := h.2 q h1
    show q.1 < t.nextFakeFd + 1
    omega
  · subst h1
    show t.nextFakeFd < t.nextFakeFd + 1
    omega

theorem TInv_translateReadFile (P : Params) (t : HelixTranslator)
    (fd size : Nat) (h : TInv t) :
    TInv (translateReadFile P t fd size).2 := by
  unfold translateReadFile
  cases hl : dictLookup t.fdToPath fd with
  | none =>
    simp only [hl]
    exact h
  | some path =>
    simp only [hl]
    cases hrd : (fsReadFile P t.fs path).1 with
    | none =>
      simp only [hrd]
      exact ⟨fun p hp => h.1 p hp, fun q hq => h.2 q hq⟩
    | some d =>
      simp only [hrd]
      exact ⟨fun p hp => h.1 p hp, fun q hq => h.2 q hq⟩

theorem TInv_translateWriteFile (P : Params) (t : HelixTranslator)
    (fd : Nat) (d : Bytes) (h : TInv t) :
    TInv (translateWriteFile P t fd d).2 := by
  unfold translateWriteFile
  cases hl : dictLookup t.fdToPath fd with
  | none =>
    simp only [hl]
    exact h
  | some path =>
    simp only [hl]
    exact ⟨fun p hp => h.1 p hp, fun q hq => h.2 q hq⟩

theorem TInv_translateClose (t : HelixTranslator) (fd : Nat)
    (t' : HelixTranslator) (h : TInv t)
    (hs : (translateClose t fd).map Prod.snd = some t') : TInv t' := by
  unfold translateClose at hs
  cases hl : dictLookup t.fdToPath fd with
  | none =>
    simp only [hl, Option.map_some'] at hs
    injection hs with hs
    exact hs ▸ h
  | some path =>
    simp only [hl] at hs
    by_cases hk : (dictLookup t.pathToFd path).isSome = true
    · rw [if_pos hk] at hs
      simp only [Option.map_some'] at hs
      injection hs with hs
      subst hs
      exact ⟨fun p hp => h.1 p hp, fun q hq => h.2 q (mem_dictPop hq)⟩
    · rw [if_neg hk] at hs
      exact Option.noConfusion hs

theorem TInv_tStep (P : Params) (t t' : HelixTranslator) (op : TOp)
    (h : TInv t) (hs : tStep P t op = some t') : TInv t' := by
  cases op with
  | tmalloc size =>
    simp only [tStep] at hs
    injection hs with hs
    exact hs ▸ TInv_translateMalloc P t size h
  | tfree ptr =>
    simp only [tStep] at hs
    exact TInv_translateFree t ptr t' h hs
  | tread ptr size offset =>
    simp only [tStep] at hs
    injection hs with hs
    exact hs ▸ TInv_translateRead P t ptr size offset h
  | twrite ptr data offset =>
    simp only [tStep] at hs
    injection hs with hs
    exact hs ▸ TInv_translateWrite P t ptr data offset h
  | topen path =>
    simp only [tStep] at hs
    injection hs with hs
    exact hs ▸ TInv_translateOpen t path h
  | treadFile fd size =>
    simp only [tStep] at hs
    injection hs with hs
    exact hs ▸ TInv_translateReadFile P t fd size h
  | twriteFile fd data =>
    simp only [tStep] at hs
    injection hs with hs
    exact hs ▸ TInv_translateWriteFile P t fd data h
  | tclose fd =>
    simp only [tStep] at hs
    exact TInv_translateClose t fd t' h hs

theorem TInv_tRun (P : Params) :
    ∀ (ops : List TOp) (t t' : HelixTranslator),
      TInv t → tRun P t ops = some t' → TInv t' := by
  intro ops
  induction ops with
  | nil =>
    intro t t' h hs
    simp only [tRun] at hs
    injection hs with hs
    exact hs ▸ h
  | cons op rest ih =>
    intro t t' h hs
    simp only [tRun] at hs
    cases hstep : tStep P t op with
    | none =>
      rw [hstep] at hs
      exact Option.noConfusion hs
    | some t1 =>
      rw [hstep] at hs
      exact ih t1 t' (TInv_tStep P t t1 op h hstep) hs

theorem TInv_init (l1Mb l2Mb l3Mb vramMb : Nat) :
    TInv (initTranslator l1Mb l2Mb l3Mb vramMb) :=
  ⟨fun p hp => absurd hp (List.not_mem_nil p),
   fun q hq => absurd hq (List.not_mem_nil q)⟩

/-- C8 (amended): in every state reached from a fresh translator without an
uncaught exception, any two simultaneously active pointers map to distinct
cache keys (the key embeds the pointer value), every active pointer is
strictly below the monotonically increasing pointer counter and every
active descriptor strictly below the descriptor counter (so a value is
never re-issued while an active handle holds it).  The descriptor-to-path
half of the original claim is refuted by the counterexample: two active
descriptors can share a path slot. -/
theorem C8_handle_uniqueness (P : Params) (l1Mb l2Mb l3Mb vramMb : Nat)
    (ops : List TOp) (t : HelixTranslator)
    (h : tRun P (initTranslator l1Mb l2Mb l3Mb vramMb) ops = some t) :
    (∀ p1 ∈ t.ptrToKey, ∀ p2 ∈ t.ptrToKey, p1.1 ≠ p2.1 →
      p1.2.helixKey ≠ p2.2.helixKey) ∧
    (∀ p ∈ t.ptrToKey, p.1 < t.nextFakePointer) ∧
    (∀ q ∈ t.fdToPath, q.1 < t.nextFakeFd) := by
  have hinv := TInv_tRun P ops (initTranslator l1Mb l2Mb l3Mb vramMb) t
    (TInv_init l1Mb l2Mb l3Mb vramMb) h
  refine ⟨?_, fun p hp => (hinv.1 p hp).1, hinv.2⟩
  intro p1 hp1 p2 hp2 hne heq
  have h1 := (hinv.1 p1 hp1).2
  have h2 := (hinv.1 p2 hp2).2
  rw [h1, h2] at heq
  exact hne (HKey.mem.inj heq).1

/-- Witness for C8 (amended) after one allocation and one open. -/
theorem C8_handle_uniqueness_witness :
    (∀ p1 ∈ t8Reached.ptrToKey, ∀ p2 ∈ t8Reached.ptrToKey, p1.1 ≠ p2.1 →
      p1.2.helixKey ≠ p2.2.helixKey) ∧
    (∀ p ∈ t8Reached.ptrToKey, p.1 < t8Reached.nextFakePointer) ∧
    (∀ q ∈ t8Reached.fdToPath, q.1 < t8Reached.nextFakeFd) :=
  C8_handle_uniqueness pLen 1 1 1 8192 [TOp.tmalloc 4, TOp.topen "a"]
    t8Reached (by decide)

/-! ### Eviction accounting and resident-key preservation (C4) -/

theorem mem_keysOf_pop_of_ne {κ α : Type} [DecidableEq κ]
    {t : List (κ × α)} {k x : κ} (hx : x ∈ keysOf t) (hne : x ≠ k) :
    x ∈ keysOf (dictPop t k) := by
  obtain ⟨v, hv⟩ := mem_keysOf.mp hx
  refine mem_keysOf.mpr ⟨v, List.mem_filter.mpr ⟨hv, ?_⟩⟩
  simpa using hne

theorem mem_keysOf_insert_mono {κ α : Type} [DecidableEq κ]
    {t : List (κ × α)} {k x : κ} {v : α} (hx : x ∈ keysOf t) :
    x ∈ keysOf (dictInsert t k v) := by
  unfold dictInsert
  by_cases hc : t.any (fun p => decide (p.1 = k)) = true
  · rw [if_pos hc]
    unfold keysOf at hx ⊢
    rw [List.map_map]
    obtain ⟨p, hp, hpe⟩ := List.mem_map.mp hx
    refine List.mem_map.mpr ⟨p, hp, ?_⟩
    by_cases hpk : p.1 = k
    · simp only [Function.comp, if_pos hpk]
      rw [← hpe, hpk]
    · simp only [Function.comp, if_neg hpk]
      exact hpe
  · rw [if_neg hc]
    unfold keysOf at hx ⊢
    rw [List.map_append]
    exact List.mem_append.mpr (Or.inl hx)

theorem mem_keysOf_pop_append {κ α : Type} [DecidableEq κ]
    {t : List (κ × α)} {k x : κ} {v : α} (hx : x ∈ keysOf t) :
    x ∈ keysOf (dictPop t k ++ [(k, v)]) := by
  unfold keysOf
  rw [List.map_append]
  by_cases hxk : x = k
  · exact List.mem_append.mpr (Or.inr (by simp [hxk]))
  · exact List.mem_append.mpr (Or.inl (mem_keysOf_pop_of_ne hx hxk))

theorem makeRoomL3Go_zero : ∀ {M n : Nat} {t : Tier},
    (makeRoomL3Go M n t).2 = 0 → (makeRoomL3Go M n t).1 = t := by
  intro M n t
  cases t with
  | nil => intro _; rfl
  | cons p rest =>
    intro h
    rw [makeRoomL3Go] at h ⊢
    by_cases hc : getTierSize (p :: rest) + n > M
    · rw [if_pos hc] at h
      exact absurd h (by simp)
    · rw [if_neg hc]

theorem demoteToL3_l3 (P : Params) (c : HelixCache) (k : HKey)
    (b : CacheBlock) :
    (demoteToL3 P c k b).l3 =
      dictInsert (makeRoomL3Go c.l3Max (demoteSize P b) c.l3).1 k
        { (CacheBlock.compressB P b).1 with tier := MemoryTier.l3Compressed } := by
  simp only [demoteToL3, makeRoomL3, demoteSize]
  split <;> rfl

theorem demoteToL3_ev (P : Params) (c : HelixCache) (k : HKey)
    (b : CacheBlock) :
    (demoteToL3 P c k b).stats.evictions =
      c.stats.evictions + (makeRoomL3Go c.l3Max (demoteSize P b) c.l3).2 := by
  simp only [demoteToL3, makeRoomL3, demoteSize]
  split <;> rfl

theorem demoteToL3_resident {P : Params} {c : HelixCache} {k : HKey}
    {b : CacheBlock} {x : HKey}
    (hev : (demoteToL3 P c k b).stats.evictions = c.stats.evictions)
    (hx : residentKey c x) : residentKey (demoteToL3 P c k b) x := by
  have hzero : (makeRoomL3Go c.l3Max (demoteSize P b) c.l3).2 = 0 := by
    rw [demoteToL3_ev] at hev
    omega
  have hl3 : (demoteToL3 P c k b).l3 =
      dictInsert c.l3 k
        { (CacheBlock.compressB P b).1 with
          tier := MemoryTier.l3Compressed } := by
    rw [demoteToL3_l3, makeRoomL3Go_zero hzero]
  rcases hx with h1 | h2 | h3
  · exact Or.inl (by rw [demoteToL3_l1]; exact h1)
  · by_cases hxk : x = k
    · refine Or.inr (Or.inr ?_)
      rw [hl3, hxk]
      exact mem_keysOf_insert_self _ _ _
    · refine Or.inr (Or.inl ?_)
      rw [demoteToL3_l2]
      exact mem_keysOf_pop_of_ne h2 hxk
  · refine Or.inr (Or.inr ?_)
    rw [hl3]
    exact mem_keysOf_insert_mono h3

theorem makeRoomL2Fuel_ev (P : Params) (needed : Nat) :
    ∀ (fuel : Nat) (c : HelixCache),
      c.stats.evictions ≤ (makeRoomL2Fuel P needed fuel c).stats.evictions := by
  intro fuel
  induction fuel with
  | zero => intro c; exact Nat.le_refl _
  | succ n ih =>
    intro c
    rw [makeRoomL2Fuel]
    split
    · exact Nat.le_refl _
    · split
      · rename_i k0 b0 rest heq hc
        have h1 : c.stats.evictions ≤
            (demoteToL3 P c k0 b0).stats.evictions := by
          rw [demoteToL3_ev]
          omega
        exact Nat.le_trans h1 (ih _)
      · exact Nat.le_refl _

theorem makeRoomL2Fuel_resident (P : Params) (needed : Nat) :
    ∀ (fuel : Nat) (c : HelixCache) (x : HKey),
      (makeRoomL2Fuel P needed fuel c).stats.evictions = c.stats.evictions →
      residentKey c x → residentKey (makeRoomL2Fuel P needed fuel c) x := by
  intro fuel
  induction fuel with
  | zero => intro c x _ hx; exact hx
  | succ n ih =>
    intro c x hev hx
    rw [makeRoomL2Fuel] at hev ⊢
    revert hev
    split
    · exact fun _ => hx
    · split
      · rename_i k0 b0 rest heq hc
        intro hev
        have hle1 : c.stats.evictions ≤
            (demoteToL3 P c k0 b0).stats.evictions := by
          rw [demoteToL3_ev]; omega
        have hle2 := makeRoomL2Fuel_ev P needed n (demoteToL3 P c k0 b0)
        have heq1 : (demoteToL3 P c k0 b0).stats.evictions =
            c.stats.evictions := by omega
        exact ih _ x (by omega) (demoteToL3_resident heq1 hx)
      · exact fun _ => hx

theorem demoteToL2_ev (P : Params) (c : HelixCache) (k : HKey)
    (b : CacheBlock) :
    (demoteToL2 P c k b).stats.evictions =
      (makeRoomL2 P { c with l1 := dictPop c.l1 k }
        b.sizeBytes).stats.evictions := rfl

theorem demoteToL2_resident {P : Params} {c : HelixCache} {k : HKey}
    {b : CacheBlock} {x : HKey}
    (hev : (demoteToL2 P c k b).stats.evictions = c.stats.evictions)
    (hx : residentKey c x) : residentKey (demoteToL2 P c k b) x := by
  rw [demoteToL2_ev] at hev
  have hev' : (makeRoomL2Fuel P b.sizeBytes (c.l2.length + 1)
      { c with l1 := dictPop c.l1 k }).stats.evictions =
      ({ c with l1 := dictPop c.l1 k } : HelixCache).stats.evictions := hev
  have hres := makeRoomL2Fuel_resident P b.sizeBytes (c.l2.length + 1)
    { c with l1 := dictPop c.l1 k } x hev'
  by_cases hxk : x = k
  · refine Or.inr (Or.inl ?_)
    show x ∈ keysOf (dictInsert
      (makeRoomL2 P { c with l1 := dictPop c.l1 k } b.sizeBytes).l2 k
      { b with tier := MemoryTier.l2Warm })
    rw [hxk]
    exact mem_keysOf_insert_self _ _ _
  · have hx1 : residentKey { c with l1 := dictPop c.l1 k } x := by
      rcases hx with h1 | h2 | h3
      · exact Or.inl (mem_keysOf_pop_of_ne h1 hxk)
      · exact Or.inr (Or.inl h2)
      · exact Or.inr (Or.inr h3)
    rcases hres hx1 with h1 | h2 | h3
    · exact Or.inl h1
    · refine Or.inr (Or.inl ?_)
      show x ∈ keysOf (dictInsert
        (makeRoomL2 P { c with l1 := dictPop c.l1 k } b.sizeBytes).l2 k
        { b with tier := MemoryTier.l2Warm })
      exact mem_keysOf_insert_mono h2
    · exact Or.inr (Or.inr h3)

theorem demoteToL2_ev_ge (P : Params) (c : HelixCache) (k : HKey)
    (b : CacheBlock) :
    c.stats.evictions ≤ (demoteToL2 P c k b).stats.evictions := by
  rw [demoteToL2_ev]
  exact makeRoomL2Fuel_ev P b.sizeBytes (c.l2.length + 1)
    { c with l1 := dictPop c.l1 k }

theorem makeRoomL1Fuel_ev (P : Params) (needed : Nat) :
    ∀ (fuel : Nat) (c : HelixCache),
      c.stats.evictions ≤ (makeRoomL1Fuel P needed fuel c).stats.evictions := by
  intro fuel
  induction fuel with
  | zero => intro c; exact Nat.le_refl _
  | succ n ih =>
    intro c
    rw [makeRoomL1Fuel]
    split
    · exact Nat.le_refl _
    · split
      · rename_i k0 b0 rest heq hc
        exact Nat.le_trans (demoteToL2_ev_ge P c k0 b0) (ih _)
      · exact Nat.le_refl _

theorem makeRoomL1Fuel_resident (P : Params) (needed : Nat) :
    ∀ (fuel : Nat) (c : HelixCache) (x : HKey),
      (makeRoomL1Fuel P needed fuel c).stats.evictions = c.stats.evictions →
      residentKey c x → residentKey (makeRoomL1Fuel P needed fuel c) x := by
  intro fuel
  induction fuel with
  | zero => intro c x _ hx; exact hx
  | succ n ih =>
    intro c x hev hx
    rw [makeRoomL1Fuel] at hev ⊢
    revert hev
    split
    · exact fun _ => hx
    · split
      · rename_i k0 b0 rest heq hc
        intro hev
        have hle1 := demoteToL2_ev_ge P c k0 b0
        have hle2 := makeRoomL1Fuel_ev P needed n (demoteToL2 P c k0 b0)
        have heq1 : (demoteToL2 P c k0 b0).stats.evictions =
            c.stats.evictions := by omega
        exact ih _ x (by omega) (demoteToL2_resident heq1 hx)
      · exact fun _ => hx

theorem promoteToL1_ev (P : Params) (c : HelixCache) (k : HKey)
    (b : CacheBlock) :
    (promoteToL1 P c k b).stats.evictions =
      (makeRoomL1 P { c with l2 := dictPop c.l2 k }
        b.sizeBytes).stats.evictions := rfl

theorem promoteToL1_ev_ge (P : Params) (c : HelixCache) (k : HKey)
    (b : CacheBlock) :
    c.stats.evictions ≤ (promoteToL1 P c k b).stats.evictions := by
  rw [promoteToL1_ev]
  exact makeRoomL1Fuel_ev P b.sizeBytes (c.l1.length + 1)
    { c with l2 := dictPop c.l2 k }

theorem promoteToL1_resident {P : Params} {c : HelixCache} {k : HKey}
    {b : CacheBlock} {x : HKey}
    (hev : (promoteToL1 P c k b).stats.evictions = c.stats.evictions)
    (hx : residentKey c x) : residentKey (promoteToL1 P c k b) x := by
  rw [promoteToL1_ev] at hev
  by_cases hxk : x = k
  · refine Or.inl ?_
    show x ∈ keysOf (dictInsert
      (makeRoomL1 P { c with l2 := dictPop c.l2 k } b.sizeBytes).l1 k
      { b with tier := MemoryTier.l1Hot })
    rw [hxk]
    exact mem_keysOf_insert_self _ _ _
  · have hx1 : residentKey { c with l2 := dictPop c.l2 k } x := by
      rcases hx with h1 | h2 | h3
      · exact Or.inl h1
      · exact Or.inr (Or.inl (mem_keysOf_pop_of_ne h2 hxk))
      · exact Or.inr (Or.inr h3)
    have hev' : (makeRoomL1Fuel P b.sizeBytes (c.l1.length + 1)
        { c with l2 := dictPop c.l2 k }).stats.evictions =
        ({ c with l2 := dictPop c.l2 k } : HelixCache).stats.evictions := hev
    have hres := makeRoomL1Fuel_resident P b.sizeBytes (c.l1.length + 1)
      { c with l2 := dictPop c.l2 k } x hev' hx1
    rcases hres with h1 | h2 | h3
    · refine Or.inl ?_
      show x ∈ keysOf (dictInsert
        (makeRoomL1 P { c with l2 := dictPop c.l2 k } b.sizeBytes).l1 k
        { b with tier := MemoryTier.l1Hot })
      exact mem_keysOf_insert_mono h1
    · exact Or.inr (Or.inl h2)
    · exact Or.inr (Or.inr h3)

theorem promoteToL2_ev (P : Params) (c : HelixCache) (k : HKey)
    (b : CacheBlock) :
    (promoteToL2 P c k b).stats.evictions =
      (makeRoomL2 P { c with l3 := dictPop c.l3 k }
        b.sizeBytes).stats.evictions := rfl

theorem promoteToL2_ev_ge (P : Params) (c : HelixCache) (k : HKey)
    (b : CacheBlock) :
    c.stats.evictions ≤ (promoteToL2 P c k b).stats.evictions := by
  rw [promoteToL2_ev]
  exact makeRoomL2Fuel_ev P b.sizeBytes (c.l2.length + 1)
    { c with l3 := dictPop c.l3 k }

theorem promoteToL2_resident {P : Params} {c : HelixCache} {k : HKey}
    {b : CacheBlock} {x : HKey}
    (hev : (promoteToL2 P c k b).stats.evictions = c.stats.evictions)
    (hx : residentKey c x) : residentKey (promoteToL2 P c k b) x := by
  rw [promoteToL2_ev] at hev
  by_cases hxk : x = k
  · refine Or.inr (Or.inl ?_)
    show x ∈ keysOf (dictInsert
      (makeRoomL2 P { c with l3 := dictPop c.l3 k } b.sizeBytes).l2 k
      { b with tier := MemoryTier.l2Warm })
    rw [hxk]
    exact mem_keysOf_insert_self _ _ _
  · have hx1 : residentKey { c with l3 := dictPop c.l3 k } x := by
      rcases hx with h1 | h2 | h3
      · exact Or.inl h1
      · exact Or.inr (Or.inl h2)
      · exact Or.inr (Or.inr (mem_keysOf_pop_of_ne h3 hxk))
    have hev' : (makeRoomL2Fuel P b.sizeBytes (c.l2.length + 1)
        { c with l3 := dictPop c.l3 k }).stats.evictions =
        ({ c with l3 := dictPop c.l3 k } : HelixCache).stats.evictions := hev
    have hres := makeRoomL2Fuel_resident P b.sizeBytes (c.l2.length + 1)
      { c with l3 := dictPop c.l3 k } x hev' hx1
    rcases hres with h1 | h2 | h3
    · exact Or.inl h1
    · refine Or.inr (Or.inl ?_)
      show x ∈ keysOf (dictInsert
        (makeRoomL2 P { c with l3 := dictPop c.l3 k } b.sizeBytes).l2 k
        { b with tier := MemoryTier.l2Warm })
      exact mem_keysOf_insert_mono h2
    · exact Or.inr (Or.inr h3)

theorem cachePut_ev (P : Params) (c : HelixCache) (k : HKey) (d : Bytes)
    (size : Nat) :
    (cachePut P c k d size).stats.evictions =
      (makeRoomL1 P { c with l2 := dictPop c.l2 k, l3 := dictPop c.l3 k }
        size).stats.evictions := rfl

theorem cachePut_ev_ge (P : Params) (c : HelixCache) (k : HKey) (d : Bytes)
    (size : Nat) :
    c.stats.evictions ≤ (cachePut P c k d size).stats.evictions := by
  rw [cachePut_ev]
  exact makeRoomL1Fuel_ev P size (c.l1.length + 1)
    { c with l2 := dictPop c.l2 k, l3 := dictPop c.l3 k }

theorem cachePut_mem_l1 (P : Params) (c : HelixCache) (k : HKey) (d : Bytes)
    (size : Nat) : k ∈ keysOf (cachePut P c k d size).l1 :=
  mem_keysOf_insert_self _ _ _

theorem cachePut_resident {P : Params} {c : HelixCache} {k : HKey}
    {d : Bytes} {size : Nat} {x : HKey}
    (hev : (cachePut P c k d size).stats.evictions = c.stats.evictions)
    (hx : residentKey c x) : residentKey (cachePut P c k d size) x := by
  by_cases hxk : x = k
  · exact Or.inl (hxk ▸ cachePut_mem_l1 P c k d size)
  · rw [cachePut_ev] at hev
    have hx1 : residentKey
        { c with l2 := dictPop c.l2 k, l3 := dictPop c.l3 k } x := by
      rcases hx with h1 | h2 | h3
      · exact Or.inl h1
      · exact Or.inr (Or.inl (mem_keysOf_pop_of_ne h2 hxk))
      · exact Or.inr (Or.inr (mem_keysOf_pop_of_ne h3 hxk))
    have hev' : (makeRoomL1Fuel P size (c.l1.length + 1)
        { c with l2 := dictPop c.l2 k, l3 := dictPop c.l3 k
        }).stats.evictions =
        ({ c with l2 := dictPop c.l2 k, l3 := dictPop c.l3 k } :
          HelixCache).stats.evictions := hev
    have hres := makeRoomL1Fuel_resident P size (c.l1.length + 1)
      { c with l2 := dictPop c.l2 k, l3 := dictPop c.l3 k } x hev' hx1
    rcases hres with h1 | h2 | h3
    · refine Or.inl ?_
      show x ∈ keysOf (dictInsert
        (makeRoomL1 P { c with l2 := dictPop c.l2 k, l3 := dictPop c.l3 k }
          size).l1 k
        { data := d, tier := MemoryTier.l1Hot, sizeBytes := size })
      exact mem_keysOf_insert_mono h1
    · exact Or.inr (Or.inl h2)
    · exact Or.inr (Or.inr h3)

theorem cacheGet_ev_ge (P : Params) (c : HelixCache) (k : HKey) :
    c.stats.evictions ≤ (cacheGet P c k).2.stats.evictions := by
  unfold cacheGet
  cases hl1 : dictLookup c.l1 k with
  | some b => exact Nat.le_refl _
  | none =>
    simp only [hl1]
    cases hl2 : dictLookup c.l2 k with
    | some b =>
      simp only [hl2]
      split
      · exact promoteToL1_ev_ge P
          { c with stats := { c.stats with
            l1Misses := c.stats.l1Misses + 1,
            l2Hits := c.stats.l2Hits + 1 } } k b.access
      · exact Nat.le_refl _
    | none =>
      simp only [hl2]
      cases hl3 : dictLookup c.l3 k with
      | some b =>
        simp only [hl3]
        split
        · split
          · exact promoteToL2_ev_ge P
              { c with stats := { c.stats with
                l1Misses := c.stats.l1Misses + 1,
                l2Misses := c.stats.l2Misses + 1,
                l3Hits := c.stats.l3Hits + 1 } } k b.access.decompressB
          · exact Nat.le_refl _
        · split
          · exact promoteToL2_ev_ge P
              { c with stats := { c.stats with
                l1Misses := c.stats.l1Misses + 1,
                l2Misses := c.stats.l2Misses + 1,
                l3Hits := c.stats.l3Hits + 1 } } k b.access
          · exact Nat.le_refl _
      | none =>
        simp only [hl3]
        exact Nat.le_refl _

theorem cacheGet_resident {P : Params} {c : HelixCache} {k : HKey} {x : HKey}
    (hev : (cacheGet P c k).2.stats.evictions = c.stats.evictions)
    (hx : residentKey c x) : residentKey (cacheGet P c k).2 x := by
  revert hev
  unfold cacheGet
  cases hl1 : dictLookup c.l1 k with
  | some b =>
    intro _
    rcases hx with h1 | h2 | h3
    · exact Or.inl (mem_keysOf_pop_append h1)
    · exact Or.inr (Or.inl h2)
    · exact Or.inr (Or.inr h3)
  | none =>
    simp only [hl1]
    cases hl2 : dictLookup c.l2 k with
    | some b =>
      simp only [hl2]
      split
      · intro hev
        exact promoteToL1_resident hev hx
      · intro _
        rcases hx with h1 | h2 | h3
        · exact Or.inl h1
        · exact Or.inr (Or.inl (mem_keysOf_pop_append h2))
        · exact Or.inr (Or.inr h3)
    | none =>
      simp only [hl2]
      cases hl3 : dictLookup c.l3 k with
      | some b =>
        simp only [hl3]
        split
        · split
          · intro hev
            exact promoteToL2_resident hev hx
          · intro _
            rcases hx with h1 | h2 | h3
            · exact Or.inl h1
            · exact Or.inr (Or.inl h2)
            · exact Or.inr (Or.inr (mem_keysOf_pop_append h3))
        · split
          · intro hev
            exact promoteToL2_resident hev hx
          · intro _
            rcases hx with h1 | h2 | h3
            · exact Or.inl h1
            · exact Or.inr (Or.inl h2)
            · exact Or.inr (Or.inr (mem_keysOf_pop_append h3))
      | none =>
        simp only [hl3]
        intro _
        exact hx

theorem memStep_ev_ge (P : Params) (m : HelixMemoryManager) (op : MemOp) :
    m.cache.stats.evictions ≤ (memStep P m op).cache.stats.evictions := by
  cases op with
  | get k => exact cacheGet_ev_ge P m.cache k
  | put k d size => exact cachePut_ev_ge P m.cache k d size
  | malloc k d =>
    show m.cache.stats.evictions ≤ (memMalloc P m k d).2.cache.stats.evictions
    unfold memMalloc
    by_cases hc : m.totalAllocated + (P.sizeOf d : Int) > m.maxVirtual
    · rw [if_pos hc]
    · rw [if_neg hc]
      exact cachePut_ev_ge P m.cache k d (P.sizeOf d)
  | free k =>
    show m.cache.stats.evictions ≤ (memFree m k).2.cache.stats.evictions
    unfold memFree
    cases hl : dictLookup m.allocations k with
    | none => exact Nat.le_refl _
    | some size => exact Nat.le_refl _
  | read k => exact cacheGet_ev_ge P m.cache k
  | write k d =>
    show m.cache.stats.evictions ≤ (memWrite P m k d).2.cache.stats.evictions
    unfold memWrite
    have h1 : m.cache.stats.evictions ≤
        (if (dictLookup m.allocations k).isSome = true then (memFree m k).2
         else m).cache.stats.evictions := by
      by_cases hc : (dictLookup m.allocations k).isSome = true
      · rw [if_pos hc]
        unfold memFree
        cases hl : dictLookup m.allocations k with
        | none => exact Nat.le_refl _
        | some size => exact Nat.le_refl _
      · rw [if_neg hc]
    refine Nat.le_trans h1 ?_
    generalize (if (dictLookup m.allocations k).isSome = true
        then (memFree m k).2 else m) = m1
    show m1.cache.stats.evictions ≤ (memMalloc P m1 k d).2.cache.stats.evictions
    unfold memMalloc
    by_cases hc : m1.totalAllocated + (P.sizeOf d : Int) > m1.maxVirtual
    · rw [if_pos hc]
    · rw [if_neg hc]
      exact cachePut_ev_ge P m1.cache k d (P.sizeOf d)

theorem memFree_allocSubset (m : HelixMemoryManager) (k : HKey)
    (h : allocSubset m) : allocSubset (memFree m k).2 := by
  unfold memFree
  cases hl : dictLookup m.allocations k with
  | none => exact h
  | some size =>
    intro x hx
    have hxm : x ∈ keysOf m.allocations := mem_keysOf_pop hx
    have hxk : x ≠ k := by
      intro he
      exact not_mem_keysOf_pop m.allocations k (he ▸ hx)
    rcases h x hxm with h1 | h2 | h3
    · exact Or.inl (mem_keysOf_pop_of_ne h1 hxk)
    · exact Or.inr (Or.inl (mem_keysOf_pop_of_ne h2 hxk))
    · exact Or.inr (Or.inr (mem_keysOf_pop_of_ne h3 hxk))

theorem memMalloc_allocSubset (P : Params) (m : HelixMemoryManager)
    (k : HKey) (d : Bytes)
    (hev : (memMalloc P m k d).2.cache.stats.evictions =
      m.cache.stats.evictions)
    (h : allocSubset m) : allocSubset (memMalloc P m k d).2 := by
  revert hev
  unfold memMalloc
  by_cases hc : m.totalAllocated + (P.sizeOf d : Int) > m.maxVirtual
  · rw [if_pos hc]
    exact fun _ => h
  · rw [if_neg hc]
    intro hev
    intro x hx
    have hx' : x ∈ keysOf (dictInsert m.allocations k (P.sizeOf d)) := hx
    rcases mem_keysOf_insert hx' with h1 | h1
    · exact cachePut_resident hev (h x h1)
    · subst h1
      exact Or.inl (cachePut_mem_l1 P m.cache x d (P.sizeOf d))

theorem memStep_allocSubset (P : Params) (m : HelixMemoryManager)
    (op : MemOp)
    (hev : (memStep P m op).cache.stats.evictions = m.cache.stats.evictions)
    (h : allocSubset m) : allocSubset (memStep P m op) := by
  cases op with
  | get k =>
    intro x hx
    exact cacheGet_resident hev (h x hx)
  | put k d size =>
    intro x hx
    exact cachePut_resident hev (h x hx)
  | malloc k d => exact memMalloc_allocSubset P m k d hev h
  | free k => exact memFree_allocSubset m k h
  | read k =>
    intro x hx
    exact cacheGet_resident hev (h x hx)
  | write k d =>
    show allocSubset (memMalloc P (if (dictLookup m.allocations k).isSome =
      true then (memFree m k).2 else m) k d).2
    have hev1 : (if (dictLookup m.allocations k).isSome = true
        then (memFree m k).2 else m).cache.stats.evictions =
        m.cache.stats.evictions := by
      by_cases hc : (dictLookup m.allocations k).isSome = true
      · rw [if_pos hc]
        unfold memFree
        cases hl : dictLookup m.allocations k with
        | none => rfl
        | some size => rfl
      · rw [if_neg hc]
    have hsub1 : allocSubset (if (dictLookup m.allocations k).isSome = true
        then (memFree m k).2 else m) := by
      by_cases hc : (dictLookup m.allocations k).isSome = true
      · rw [if_pos hc]
        exact memFree_allocSubset m k h
      · rw [if_neg hc]
        exact h
    refine memMalloc_allocSubset P _ k d ?_ hsub1
    rw [hev1]
    exact hev

theorem memRun_ev_ge (P : Params) :
    ∀ (ops : List MemOp) (m : HelixMemoryManager),
      m.cache.stats.evictions ≤ (memRun P m ops).cache.stats.evictions := by
  intro ops
  induction ops with
  | nil => intro m; exact Nat.le_refl _
  | cons op rest ih =>
    intro m
    exact Nat.le_trans (memStep_ev_ge P m op) (ih (memStep P m op))

theorem memRun_allocSubset (P : Params) :
    ∀ (ops : List MemOp) (m : HelixMemoryManager),
      allocSubset m →
      (memRun P m ops).cache.stats.evictions = m.cache.stats.evictions →
      allocSubset (memRun P m ops) := by
  intro ops
  induction ops with
  | nil => intro m h _; exact h
  | cons op rest ih =>
    intro m h hev
    have h1 := memStep_ev_ge P m op
    have h2 := memRun_ev_ge P rest (memStep P m op)
    have hstep : (memStep P m op).cache.stats.evictions =
        m.cache.stats.evictions := by
      simp only [memRun] at hev
      omega
    refine ih (memStep P m op) (memStep_allocSubset P m op hstep h) ?_
    show (memRun P (memStep P m op) rest).cache.stats.evictions =
      (memStep P m op).cache.stats.evictions
    simp only [memRun] at hev
    omega

/-- C4 (amended): for every sequence of allocator operations during which
no capacity-driven eviction from the Compressed tier occurs (the eviction
counter of the final state is still 0), the allocation table's key set is a
subset of the keys resident in some tier.  An eviction breaks the subset
property — the counterexample shows the evicted key's allocation record
surviving with no resident block. -/
theorem C4_alloc_subset_no_eviction (P : Params)
    (l1Mb l2Mb l3Mb vramMb : Nat) (ops : List MemOp)
    (h : (memRun P (initMem (initCache l1Mb l2Mb l3Mb) vramMb)
        ops).cache.stats.evictions = 0) :
    allocSubset (memRun P (initMem (initCache l1Mb l2Mb l3Mb) vramMb) ops) := by
  refine memRun_allocSubset P ops (initMem (initCache l1Mb l2Mb l3Mb) vramMb)
    ?_ ?_
  · intro x hx
    exact absurd hx (List.not_mem_nil x)
  · rw [h]
    rfl

/-- Witness for C4 (amended): three eviction-free allocations. -/
theorem C4_alloc_subset_no_eviction_witness :
    allocSubset (memRun pLen (initMem (initCache 1 1 1) 8192)
      [MemOp.malloc (HKey.user "a") [1], MemOp.malloc (HKey.user "b") [2, 3],
       MemOp.free (HKey.user "a")]) :=
  C4_alloc_subset_no_eviction pLen 1 1 1 8192
    [MemOp.malloc (HKey.user "a") [1], MemOp.malloc (HKey.user "b") [2, 3],
     MemOp.free (HKey.user "a")] (by decide)

/-! ### Single-tier residence (C3) -/

theorem mem_keysOf_pop_append_inv {κ α : Type} [DecidableEq κ]
    {t : List (κ × α)} {k x : κ} {v : α}
    (h : x ∈ keysOf (dictPop t k ++ [(k, v)])) : x ∈ keysOf t ∨ x = k := by
  unfold keysOf at h
  rw [List.map_append] at h
  rcases List.mem_append.mp h with h1 | h1
  · exact Or.inl (mem_keysOf_pop h1)
  · exact Or.inr (by simpa using h1)

theorem tiersDisjoint_mono {c c' : HelixCache} (h : tiersDisjoint c)
    (h1 : ∀ x, x ∈ keysOf c'.l1 → x ∈ keysOf c.l1)
    (h2 : ∀ x, x ∈ keysOf c'.l2 → x ∈ keysOf c.l2)
    (h3 : ∀ x, x ∈ keysOf c'.l3 → x ∈ keysOf c.l3) : tiersDisjoint c' := by
  refine ⟨fun k hk => ⟨fun hk2 => ?_, fun hk3 => ?_⟩, fun k hk2 hk3 => ?_⟩
  · exact (h.1 k (h1 k hk)).1 (h2 k hk2)
  · exact (h.1 k (h1 k hk)).2 (h3 k hk3)
  · exact h.2 k (h2 k hk2) (h3 k hk3)

theorem tiersDisjoint_demoteToL3 {P : Params} {c : HelixCache} {k : HKey}
    {b : CacheBlock} (hk : k ∈ keysOf c.l2) (h : tiersDisjoint c) :
    tiersDisjoint (demoteToL3 P c k b) := by
  refine ⟨fun x hx => ?_, fun x hx2 hx3 => ?_⟩
  · rw [demoteToL3_l1] at hx
    have hxk : x ≠ k := fun he => (h.1 x hx).1 (he ▸ hk)
    constructor
    · intro hx2
      rw [demoteToL3_l2] at hx2
      exact (h.1 x hx).1 (mem_keysOf_pop hx2)
    · intro hx3
      rcases demoteToL3_l3_keys hx3 with h1 | h1
      · exact (h.1 x hx).2 h1
      · exact hxk h1
  · rw [demoteToL3_l2] at hx2
    have hxk : x ≠ k := by
      intro he
      exact not_mem_keysOf_pop c.l2 k (he ▸ hx2)
    rcases demoteToL3_l3_keys hx3 with h1 | h1
    · exact h.2 x (mem_keysOf_pop hx2) h1
    · exact hxk h1

theorem tiersDisjoint_makeRoomL2Fuel (P : Params) (needed : Nat) :
    ∀ (fuel : Nat) (c : HelixCache), tiersDisjoint c →
      tiersDisjoint (makeRoomL2Fuel P needed fuel c) := by
  intro fuel
  induction fuel with
  | zero => intro c h; exact h
  | succ n ih =>
    intro c h
    rw [makeRoomL2Fuel]
    split
    · exact h
    · split
      · rename_i k0 b0 rest heq hc
        refine ih _ (tiersDisjoint_demoteToL3 ?_ h)
        rw [heq]
        exact List.mem_map.mpr ⟨(k0, b0), List.mem_cons_self _ _, rfl⟩
      · exact h

theorem tiersDisjoint_makeRoomL2 (P : Params) (c : HelixCache) (needed : Nat)
    (h : tiersDisjoint c) : tiersDisjoint (makeRoomL2 P c needed) :=
  tiersDisjoint_makeRoomL2Fuel P needed (c.l2.length + 1) c h

theorem tiersDisjoint_demoteToL2 {P : Params} {c : HelixCache} {k : HKey}
    {b : CacheBlock} (hk : k ∈ keysOf c.l1) (h : tiersDisjoint c) :
    tiersDisjoint (demoteToL2 P c k b) := by
  have hd1 : tiersDisjoint { c with l1 := dictPop c.l1 k } :=
    tiersDisjoint_mono h (fun x hx => mem_keysOf_pop hx)
      (fun x hx => hx) (fun x hx => hx)
  have hd2 := tiersDisjoint_makeRoomL2 P { c with l1 := dictPop c.l1 k }
    b.sizeBytes hd1
  have hl1eq := demoteToL2_l1 P c k b
  refine ⟨fun x hx => ?_, fun x hx2 hx3 => ?_⟩
  · rw [hl1eq] at hx
    have hxk : x ≠ k := by
      intro he
      exact not_mem_keysOf_pop c.l1 k (he ▸ hx)
    have hx1 : x ∈ keysOf c.l1 := mem_keysOf_pop hx
    constructor
    · intro hx2
      rcases demoteToL2_l2_keys hx2 with h1 | h1
      · exact (h.1 x hx1).1 h1
      · exact hxk h1
    · intro hx3
      rcases demoteToL2_l3_keys hx3 with h1 | h1
      · exact (h.1 x hx1).2 h1
      · exact (h.1 x hx1).1 h1
  · have hx2' : x ∈ keysOf (dictInsert
        (makeRoomL2 P { c with l1 := dictPop c.l1 k } b.sizeBytes).l2 k
        { b with tier := MemoryTier.l2Warm }) := hx2
    have hx3' : x ∈ keysOf
        (makeRoomL2 P { c with l1 := dictPop c.l1 k } b.sizeBytes).l3 := hx3
    rcases mem_keysOf_insert hx2' with h1 | h1
    · exact (hd2.2 x h1) hx3'
    · have hx3k : k ∈ keysOf
          (makeRoomL2 P { c with l1 := dictPop c.l1 k } b.sizeBytes).l3 :=
        h1 ▸ hx3'
      rcases makeRoomL2_l3_keys P { c with l1 := dictPop c.l1 k }
          b.sizeBytes hx3k with h2 | h2
      · exact (h.1 k hk).2 h2
      · exact (h.1 k hk).1 h2

theorem tiersDisjoint_makeRoomL1Fuel (P : Params) (needed : Nat) :
    ∀ (fuel : Nat) (c : HelixCache), tiersDisjoint c →
      tiersDisjoint (makeRoomL1Fuel P needed fuel c) := by
  intro fuel
  induction fuel with
  | zero => intro c h; exact h
  | succ n ih =>
    intro c h
    rw [makeRoomL1Fuel]
    split
    · exact h
    · split
      · rename_i k0 b0 rest heq hc
        refine ih _ (tiersDisjoint_demoteToL2 ?_ h)
        rw [heq]
        exact List.mem_map.mpr ⟨(k0, b0), List.mem_cons_self _ _, rfl⟩
      · exact h

theorem tiersDisjoint_makeRoomL1 (P : Params) (c : HelixCache) (needed : Nat)
    (h : tiersDisjoint c) : tiersDisjoint (makeRoomL1 P c needed) :=
  tiersDisjoint_makeRoomL1Fuel P needed (c.l1.length + 1) c h

theorem tiersDisjoint_promoteToL1 {P : Params} {c : HelixCache} {k : HKey}
    {b : CacheBlock} (hk : k ∈ keysOf c.l2) (h : tiersDisjoint c) :
    tiersDisjoint (promoteToL1 P c k b) := by
  have hk1 : k ∉ keysOf c.l1 := fun hx => (h.1 k hx).1 hk
  have hk3 : k ∉ keysOf c.l3 := h.2 k hk
  have hd1 : tiersDisjoint { c with l2 := dictPop c.l2 k } :=
    tiersDisjoint_mono h (fun x hx => hx)
      (fun x hx => mem_keysOf_pop hx) (fun x hx => hx)
  have hd2 := tiersDisjoint_makeRoomL1 P { c with l2 := dictPop c.l2 k }
    b.sizeBytes hd1
  refine ⟨fun x hx => ?_, fun x hx2 hx3 => ?_⟩
  · have hx' : x ∈ keysOf (dictInsert
        (makeRoomL1 P { c with l2 := dictPop c.l2 k } b.sizeBytes).l1 k
        { b with tier := MemoryTier.l1Hot }) := hx
    rcases mem_keysOf_insert hx' with h1 | h1
    · exact ⟨fun hx2 => (hd2.1 x h1).1 hx2, fun hx3 => (hd2.1 x h1).2 hx3⟩
    · constructor
      · intro hx2
        have hx2' : k ∈ keysOf
            (makeRoomL1 P { c with l2 := dictPop c.l2 k } b.sizeBytes).l2 :=
          h1 ▸ hx2
        rcases makeRoomL1_l2_keys P { c with l2 := dictPop c.l2 k }
            b.sizeBytes hx2' with h2 | h2
        · exact not_mem_keysOf_pop c.l2 k h2
        · exact hk1 h2
      · intro hx3
        have hx3' : k ∈ keysOf
            (makeRoomL1 P { c with l2 := dictPop c.l2 k } b.sizeBytes).l3 :=
          h1 ▸ hx3
        rcases makeRoomL1_l3_keys P { c with l2 := dictPop c.l2 k }
            b.sizeBytes hx3' with h2 | h2 | h2
        · exact hk3 h2
        · exact not_mem_keysOf_pop c.l2 k h2
        · exact hk1 h2
  · exact hd2.2 x hx2 hx3

theorem tiersDisjoint_promoteToL2 {P : Params} {c : HelixCache} {k : HKey}
    {b : CacheBlock} (hk : k ∈ keysOf c.l3) (h : tiersDisjoint c) :
    tiersDisjoint (promoteToL2 P c k b) := by
  have hk1 : k ∉ keysOf c.l1 := fun hx => (h.1 k hx).2 hk
  have hk2 : k ∉ keysOf c.l2 := fun hx => h.2 k hx hk
  have hd1 : tiersDisjoint { c with l3 := dictPop c.l3 k } :=
    tiersDisjoint_mono h (fun x hx => hx) (fun x hx => hx)
      (fun x hx => mem_keysOf_pop hx)
  have hd2 := tiersDisjoint_makeRoomL2 P { c with l3 := dictPop c.l3 k }
    b.sizeBytes hd1
  refine ⟨fun x hx => ?_, fun x hx2 hx3 => ?_⟩
  · have hx1 : x ∈ keysOf
        (makeRoomL2 P { c with l3 := dictPop c.l3 k } b.sizeBytes).l1 := hx
    constructor
    · intro hx2
      have hx2' : x ∈ keysOf (dictInsert
          (makeRoomL2 P { c with l3 := dictPop c.l3 k } b.sizeBytes).l2 k
          { b with tier := MemoryTier.l2Warm }) := hx2
      rcases mem_keysOf_insert hx2' with h1 | h1
      · exact (hd2.1 x hx1).1 h1
      · have : x ∈ keysOf c.l1 := by
          have := hx1
          rw [makeRoomL2_l1] at this
          exact this
        exact hk1 (h1 ▸ this)
    · intro hx3
      exact (hd2.1 x hx1).2 hx3
  · have hx2' : x ∈ keysOf (dictInsert
        (makeRoomL2 P { c with l3 := dictPop c.l3 k } b.sizeBytes).l2 k
        { b with tier := MemoryTier.l2Warm }) := hx2
    have hx3' : x ∈ keysOf
        (makeRoomL2 P { c with l3 := dictPop c.l3 k } b.sizeBytes).l3 := hx3
    rcases mem_keysOf_insert hx2' with h1 | h1
    · exact hd2.2 x h1 hx3'
    · have hx3k : k ∈ keysOf
          (makeRoomL2 P { c with l3 := dictPop c.l3 k } b.sizeBytes).l3 :=
        h1 ▸ hx3'
      rcases makeRoomL2_l3_keys P { c with l3 := dictPop c.l3 k }
          b.sizeBytes hx3k with h2 | h2
      · exact not_mem_keysOf_pop c.l3 k h2
      · exact hk2 h2

theorem tiersDisjoint_cachePut {P : Params} {c : HelixCache} {k : HKey}
    {d : Bytes} {size : Nat} (hguard : k ∉ keysOf c.l1)
    (h : tiersDisjoint c) : tiersDisjoint (cachePut P c k d size) := by
  have hd1 : tiersDisjoint
      { c with l2 := dictPop c.l2 k, l3 := dictPop c.l3 k } :=
    tiersDisjoint_mono h (fun x hx => hx)
      (fun x hx => mem_keysOf_pop hx) (fun x hx => mem_keysOf_pop hx)
  have hd2 := tiersDisjoint_makeRoomL1 P
    { c with l2 := dictPop c.l2 k, l3 := dictPop c.l3 k } size hd1
  refine ⟨fun x hx => ?_, fun x hx2 hx3 => ?_⟩
  · have hx' : x ∈ keysOf (dictInsert
        (makeRoomL1 P { c with l2 := dictPop c.l2 k, l3 := dictPop c.l3 k }
          size).l1 k
        { data := d, tier := MemoryTier.l1Hot, sizeBytes := size }) := hx
    rcases mem_keysOf_insert hx' with h1 | h1
    · exact ⟨fun hx2 => (hd2.1 x h1).1 hx2, fun hx3 => (hd2.1 x h1).2 hx3⟩
    · constructor
      · intro hx2
        have hx2' : k ∈ keysOf (makeRoomL1 P
            { c with l2 := dictPop c.l2 k, l3 := dictPop c.l3 k } size).l2 :=
          h1 ▸ hx2
        rcases makeRoomL1_l2_keys P
            { c with l2 := dictPop c.l2 k, l3 := dictPop c.l3 k } size
            hx2' with h2 | h2
        · exact not_mem_keysOf_pop c.l2 k h2
        · exact hguard h2
      · intro hx3
        have hx3' : k ∈ keysOf (makeRoomL1 P
            { c with l2 := dictPop c.l2 k, l3 := dictPop c.l3 k } size).l3 :=
          h1 ▸ hx3
        rcases makeRoomL1_l3_keys P
            { c with l2 := dictPop c.l2 k, l3 := dictPop c.l3 k } size
            hx3' with h2 | h2 | h2
        · exact not_mem_keysOf_pop c.l3 k h2
        · exact not_mem_keysOf_pop c.l2 k h2
        · exact hguard h2
  · exact hd2.2 x hx2 hx3

theorem tiersDisjoint_cacheGet (P : Params) (c : HelixCache) (k : HKey)
    (h : tiersDisjoint c) : tiersDisjoint (cacheGet P c k).2 := by
  unfold cacheGet
  cases hl1 : dictLookup c.l1 k with
  | some b =>
    have hkm : k ∈ keysOf c.l1 :=
      mem_keysOf.mpr ⟨b, dictLookup_mem hl1⟩
    refine tiersDisjoint_mono h (fun x hx => ?_) (fun x hx => hx)
      (fun x hx => hx)
    rcases mem_keysOf_pop_append_inv hx with h1 | h1
    · exact h1
    · exact h1 ▸ hkm
  | none =>
    simp only [hl1]
    cases hl2 : dictLookup c.l2 k with
    | some b =>
      simp only [hl2]
      have hkm : k ∈ keysOf c.l2 :=
        mem_keysOf.mpr ⟨b, dictLookup_mem hl2⟩
      split
      · exact tiersDisjoint_promoteToL1 hkm h
      · refine tiersDisjoint_mono h (fun x hx => hx) (fun x hx => ?_)
          (fun x hx => hx)
        rcases mem_keysOf_pop_append_inv hx with h1 | h1
        · exact h1
        · exact h1 ▸ hkm
    | none =>
      simp only [hl2]
      cases hl3 : dictLookup c.l3 k with
      | some b =>
        simp only [hl3]
        have hkm : k ∈ keysOf c.l3 :=
          mem_keysOf.mpr ⟨b, dictLookup_mem hl3⟩
        split
        · split
          · exact tiersDisjoint_promoteToL2 hkm h
          · refine tiersDisjoint_mono h (fun x hx => hx) (fun x hx => hx)
              (fun x hx => ?_)
            rcases mem_keysOf_pop_append_inv hx with h1 | h1
            · exact h1
            · exact h1 ▸ hkm
        · split
          · exact tiersDisjoint_promoteToL2 hkm h
          · refine tiersDisjoint_mono h (fun x hx => hx) (fun x hx => hx)
              (fun x hx => ?_)
            rcases mem_keysOf_pop_append_inv hx with h1 | h1
            · exact h1
            · exact h1 ▸ hkm
      | none =>
        simp only [hl3]
        exact h

theorem memFree_disjoint (m : HelixMemoryManager) (k : HKey)
    (h : tiersDisjoint m.cache) : tiersDisjoint (memFree m k).2.cache := by
  unfold memFree
  cases hl : dictLookup m.allocations k with
  | none => exact h
  | some size =>
    exact tiersDisjoint_mono h (fun x hx => mem_keysOf_pop hx)
      (fun x hx => mem_keysOf_pop hx) (fun x hx => mem_keysOf_pop hx)

theorem memMalloc_disjoint (P : Params) (m : HelixMemoryManager) (k : HKey)
    (d : Bytes) (hk : k ∉ keysOf m.cache.l1) (h : tiersDisjoint m.cache) :
    tiersDisjoint (memMalloc P m k d).2.cache := by
  unfold memMalloc
  by_cases hc : m.totalAllocated + (P.sizeOf d : Int) > m.maxVirtual
  · rw [if_pos hc]
    exact h
  · rw [if_neg hc]
    exact tiersDisjoint_cachePut hk h

theorem memStep_disjoint (P : Params) (m : HelixMemoryManager) (op : MemOp)
    (hguard : putGuard m op = true) (h : tiersDisjoint m.cache) :
    tiersDisjoint (memStep P m op).cache := by
  cases op with
  | get k => exact tiersDisjoint_cacheGet P m.cache k h
  | read k => exact tiersDisjoint_cacheGet P m.cache k h
  | put k d size =>
    simp only [putGuard, Bool.not_eq_true', decide_eq_false_iff_not]
      at hguard
    exact tiersDisjoint_cachePut hguard h
  | malloc k d =>
    simp only [putGuard, Bool.not_eq_true', decide_eq_false_iff_not]
      at hguard
    exact memMalloc_disjoint P m k d hguard h
  | free k => exact memFree_disjoint m k h
  | write k d =>
    show tiersDisjoint (memMalloc P
      (if (dictLookup m.allocations k).isSome = true then (memFree m k).2
       else m) k d).2.cache
    by_cases hS : (dictLookup m.allocations k).isSome = true
    · rw [if_pos hS]
      obtain ⟨sz, hsz⟩ := Option.isSome_iff_exists.mp hS
      have hfree := memFree_snd_of_alloc m k sz hsz
      refine memMalloc_disjoint P (memFree m k).2 k d ?_
        (memFree_disjoint m k h)
      rw [hfree]
      exact not_mem_keysOf_pop m.cache.l1 k
    · rw [if_neg hS]
      simp only [putGuard, Bool.or_eq_true, Bool.not_eq_true',
        decide_eq_false_iff_not] at hguard
      rcases hguard with h1 | h1
      · exact absurd h1 hS
      · exact memMalloc_disjoint P m k d h1 h

theorem memRun_disjoint (P : Params) :
    ∀ (ops : List MemOp) (m : HelixMemoryManager),
      tiersDisjoint m.cache → guardedRun P m ops = true →
      tiersDisjoint (memRun P m ops).cache := by
  intro ops
  induction ops with
  | nil => intro m h _; exact h
  | cons op rest ih =>
    intro m h hg
    simp only [guardedRun, Bool.and_eq_true] at hg
    exact ih (memStep P m op) (memStep_disjoint P m op hg.1 h) hg.2

/-- C3 (amended): in every state reached by a sequence of cache and
allocator operations whose `put`s (including the `put` inside `malloc`)
never target a key currently Hot-resident — and whose `write`s target an
allocated or non-Hot key — each key is held by at most one of the Hot,
Warm and Compressed tiers.  The counterexample shows the guard is
necessary: `put` on a Hot-resident key under capacity pressure leaves the
key's old block in Warm and the new one in Hot. -/
theorem C3_single_tier_residence (P : Params) (l1Mb l2Mb l3Mb vramMb : Nat)
    (ops : List MemOp)
    (h : guardedRun P (initMem (initCache l1Mb l2Mb l3Mb) vramMb) ops =
      true) :
    tiersDisjoint
      (memRun P (initMem (initCache l1Mb l2Mb l3Mb) vramMb) ops).cache := by
  refine memRun_disjoint P ops (initMem (initCache l1Mb l2Mb l3Mb) vramMb)
    ?_ h
  exact ⟨fun k hk => absurd hk (List.not_mem_nil k),
    fun k hk => absurd hk (List.not_mem_nil k)⟩

/-- Witness for C3 (amended): a guarded run exercising put, get, demotion
pressure, free and write. -/
theorem C3_single_tier_residence_witness :
    tiersDisjoint
      (memRun pLen (initMem (initCache 1 100 100) 8192)
        [MemOp.put (HKey.user "k") [1] 614400,
         MemOp.put (HKey.user "j") [2] 614400,
         MemOp.get (HKey.user "k"),
         MemOp.malloc (HKey.user "m") [3],
         MemOp.write (HKey.user "m") [4, 5],
         MemOp.free (HKey.user "m")]).cache :=
  C3_single_tier_residence pLen 1 100 100 8192
    [MemOp.put (HKey.user "k") [1] 614400,
     MemOp.put (HKey.user "j") [2] 614400,
     MemOp.get (HKey.user "k"),
     MemOp.malloc (HKey.user "m") [3],
     MemOp.write (HKey.user "m") [4, 5],
     MemOp.free (HKey.user "m")] (by decide)

/-! ### Occupancy accounting (C2) -/

theorem getTierSize_append (a b : Tier) :
    getTierSize (a ++ b) = getTierSize a + getTierSize b := by
  unfold getTierSize
  rw [List.map_append, List.sum_append]

theorem getTierSize_pop_le (t : Tier) (k : HKey) :
    getTierSize (dictPop t k) ≤ getTierSize t := by
  induction t with
  | nil => exact Nat.le_refl _
  | cons p rest ih =>
    unfold dictPop at ih ⊢
    rw [List.filter_cons]
    by_cases hp : p.1 = k
    · have : (!decide (p.1 = k)) = false := by simp [hp]
      rw [this, if_neg (by simp)]
      calc getTierSize (rest.filter fun p => !decide (p.1 = k)) ≤
            getTierSize rest := ih
        _ ≤ getTierSize (p :: rest) := by
            unfold getTierSize
            simp
    · have : (!decide (p.1 = k)) = true := by simp [hp]
      rw [this, if_pos rfl]
      unfold getTierSize at ih ⊢
      simp only [List.map_cons, List.sum_cons]
      omega

theorem dictNodup_pop (t : Tier) (k : HKey) (h : dictNodup t) :
    dictNodup (dictPop t k) :=
  List.Nodup.sublist (List.Sublist.map Prod.fst (List.filter_sublist t)) h

theorem dictPop_id (t : Tier) (k : HKey) (h : ∀ p ∈ t, p.1 ≠ k) :
    dictPop t k = t := by
  unfold dictPop
  refine List.filter_eq_self.mpr ?_
  intro p hp
  simp [h p hp]

theorem map_replace_id (t : Tier) (k : HKey) (v : CacheBlock)
    (h : ∀ p ∈ t, p.1 ≠ k) :
    t.map (fun p => if p.1 = k then (k, v) else p) = t := by
  have : t.map (fun p => if p.1 = k then (k, v) else p) =
      t.map (fun p => p) :=
    List.map_congr_left (fun p hp => by rw [if_neg (h p hp)])
  rw [this, List.map_id']

theorem dictNodup_insert (t : Tier) (k : HKey) (v : CacheBlock)
    (h : dictNodup t) : dictNodup (dictInsert t k v) := by
  unfold dictInsert
  by_cases hc : t.any (fun p => decide (p.1 = k)) = true
  · rw [if_pos hc]
    unfold dictNodup keysOf at h ⊢
    rw [List.map_map]
    have : t.map (Prod.fst ∘ fun p => if p.1 = k then (k, v) else p) =
        t.map Prod.fst := by
      refine List.map_congr_left (fun p hp => ?_)
      by_cases hpk : p.1 = k
      · simp only [Function.comp, if_pos hpk]
        exact hpk.symm
      · simp only [Function.comp, if_neg hpk]
    rw [this]
    exact h
  · rw [if_neg hc]
    unfold dictNodup keysOf at h ⊢
    rw [List.map_append]
    rw [List.nodup_append]
    refine ⟨h, List.nodup_singleton k, ?_⟩
    intro a ha hb
    have hak : a = k := by simpa using hb
    subst hak
    obtain ⟨p, hp, hpa⟩ := List.mem_map.mp ha
    exact hc (List.any_eq_true.mpr ⟨p, hp, by simpa using hpa⟩)

theorem getTierSize_insert_le (t : Tier) (k : HKey) (b : CacheBlock)
    (h : dictNodup t) :
    getTierSize (dictInsert t k b) ≤ getTierSize t + effSize b := by
  unfold dictInsert
  by_cases hc : t.any (fun p => decide (p.1 = k)) = true
  · rw [if_pos hc]
    induction t with
    | nil => simp at hc
    | cons p rest ih =>
      by_cases hpk : p.1 = k
      · simp only [List.map_cons, if_pos hpk]
        have hnk : ∀ q ∈ rest, q.1 ≠ k := by
          intro q hq he
          have : p.1 ∈ keysOf rest := by
            rw [hpk, ← he]
            exact List.mem_map.mpr ⟨q, hq, rfl⟩
          exact (List.nodup_cons.mp h).1 this
        rw [map_replace_id rest k b hnk]
        unfold getTierSize
        simp only [List.map_cons, List.sum_cons]
        omega
      · simp only [List.map_cons, if_neg hpk]
        have hrest : rest.any (fun p => decide (p.1 = k)) = true := by
          rcases List.any_eq_true.mp hc with ⟨q, hq, hqk⟩
          rcases List.mem_cons.mp hq with h1 | h1
          · have hqk' : q.1 = k := by simpa using hqk
            exact absurd (h1 ▸ hqk' : p.1 = k) hpk
          · exact List.any_eq_true.mpr ⟨q, h1, hqk⟩
        have ih' := ih (List.nodup_cons.mp h).2 hrest
        unfold getTierSize at ih' ⊢
        simp only [List.map_cons, List.sum_cons]
        omega
  · rw [if_neg hc]
    rw [getTierSize_append]
    unfold getTierSize
    simp

theorem dictLookup_cons (p : HKey × CacheBlock) (rest : Tier) (k : HKey) :
    dictLookup (p :: rest) k =
      if p.1 = k then some p.2 else dictLookup rest k := by
  unfold dictLookup
  by_cases hp : p.1 = k
  · rw [if_pos hp, List.find?_cons_of_pos _ (by simpa using hp)]
    rfl
  · rw [if_neg hp, List.find?_cons_of_neg _ (by simpa using hp)]

theorem getTierSize_pop_add_le (t : Tier) (k : HKey) (b : CacheBlock)
    (hlook : dictLookup t k = some b) (h : dictNodup t) :
    getTierSize (dictPop t k) + effSize b ≤ getTierSize t := by
  induction t with
  | nil => exact absurd hlook (by simp [dictLookup])
  | cons p rest ih =>
    rw [dictLookup_cons] at hlook
    by_cases hp : p.1 = k
    · rw [if_pos hp] at hlook
      injection hlook with hlook
      have hnk : ∀ q ∈ rest, q.1 ≠ k := by
        intro q hq he
        have : p.1 ∈ keysOf rest := by
          rw [hp, ← he]
          exact List.mem_map.mpr ⟨q, hq, rfl⟩
        exact (List.nodup_cons.mp h).1 this
      have hpop : dictPop (p :: rest) k = rest := by
        unfold dictPop
        rw [List.filter_cons]
        have : (!decide (p.1 = k)) = false := by simp [hp]
        rw [this, if_neg (by simp)]
        exact dictPop_id rest k hnk
      rw [hpop, ← hlook]
      unfold getTierSize
      simp only [List.map_cons, List.sum_cons]
      omega
    · rw [if_neg hp] at hlook
      have hpop : dictPop (p :: rest) k = p :: dictPop rest k := by
        unfold dictPop
        rw [List.filter_cons]
        have : (!decide (p.1 = k)) = true := by simp [hp]
        rw [this, if_pos rfl]
      rw [hpop]
      have ih' := ih hlook (List.nodup_cons.mp h).2
      unfold getTierSize at ih' ⊢
      simp only [List.map_cons, List.sum_cons]
      omega

theorem effSize_access (b : CacheBlock) : effSize b.access = effSize b := rfl

theorem effSize_uncompressed (b : CacheBlock) (h : b.compressed = false) :
    effSize b = b.sizeBytes := by
  cases hcd : b.compressedData <;> simp [effSize, h, hcd]

theorem compressB_sizeBytes (P : Params) (b : CacheBlock) :
    (CacheBlock.compressB P b).1.sizeBytes = b.sizeBytes := by
  unfold CacheBlock.compressB
  cases hcb : b.compressed <;>
    simp only [Bool.not_false, Bool.not_true, if_true, if_false]
  · cases hc : P.compress b.data <;> simp
  · rfl

theorem compressB_comprOK (P : Params) (b : CacheBlock)
    (hP : comprNonempty P) (hb : b.compressed = false) :
    (CacheBlock.compressB P b).1.compressed = true →
      ∃ cd, (CacheBlock.compressB P b).1.compressedData = some cd ∧
        cd ≠ [] := by
  unfold CacheBlock.compressB
  rw [hb]
  simp only [Bool.not_false, if_true]
  cases hc : P.compress b.data with
  | none =>
    intro hcmp
    rw [hb] at hcmp
    exact Bool.noConfusion hcmp
  | some cd =>
    intro _
    refine ⟨cd, rfl, ?_⟩
    intro he
    exact hP b.data (he ▸ hc)

theorem decompressB_sizeBytes (b : CacheBlock) :
    b.decompressB.sizeBytes = b.sizeBytes := by
  unfold CacheBlock.decompressB
  split
  · split <;> rfl
  · rfl

theorem decompressB_uncompressed (b : CacheBlock)
    (hok : ∃ cd, b.compressedData = some cd ∧ cd ≠ [])
    (hcmp : b.compressed = true) : b.decompressB.compressed = false := by
  obtain ⟨cd, hcd, hne⟩ := hok
  unfold CacheBlock.decompressB
  simp only [hcd]
  have hc : (b.compressed && !cd.isEmpty) = true := by
    rw [hcmp, List.isEmpty_eq_false.mpr hne]
    rfl
  rw [if_pos hc]

theorem makeRoomL3_caps (c : HelixCache) (n : Nat) :
    (makeRoomL3 c n).l1Max = c.l1Max ∧ (makeRoomL3 c n).l2Max = c.l2Max :=
  ⟨rfl, rfl⟩

theorem demoteToL3_caps (P : Params) (c : HelixCache) (k : HKey)
    (b : CacheBlock) :
    (demoteToL3 P c k b).l1Max = c.l1Max ∧
    (demoteToL3 P c k b).l2Max = c.l2Max := by
  constructor <;> (simp only [demoteToL3, makeRoomL3]; split <;> rfl)

theorem makeRoomL2Fuel_caps (P : Params) (needed : Nat) :
    ∀ (fuel : Nat) (c : HelixCache),
      (makeRoomL2Fuel P needed fuel c).l1Max = c.l1Max ∧
      (makeRoomL2Fuel P needed fuel c).l2Max = c.l2Max := by
  intro fuel
  induction fuel with
  | zero => intro c; exact ⟨rfl, rfl⟩
  | succ n ih =>
    intro c
    rw [makeRoomL2Fuel]
    split
    · exact ⟨rfl, rfl⟩
    · split
      · rename_i k0 b0 rest heq hc
        rcases ih (demoteToL3 P c k0 b0) with ⟨h1, h2⟩
        rcases demoteToL3_caps P c k0 b0 with ⟨h3, h4⟩
        exact ⟨h1.trans h3, h2.trans h4⟩
      · exact ⟨rfl, rfl⟩

theorem demoteToL2_caps (P : Params) (c : HelixCache) (k : HKey)
    (b : CacheBlock) :
    (demoteToL2 P c k b).l1Max = c.l1Max ∧
    (demoteToL2 P c k b).l2Max = c.l2Max :=
  makeRoomL2Fuel_caps P b.sizeBytes (c.l2.length + 1)
    { c with l1 := dictPop c.l1 k }

theorem makeRoomL1Fuel_caps (P : Params) (needed : Nat) :
    ∀ (fuel : Nat) (c : HelixCache),
      (makeRoomL1Fuel P needed fuel c).l1Max = c.l1Max ∧
      (makeRoomL1Fuel P needed fuel c).l2Max = c.l2Max := by
  intro fuel
  induction fuel with
  | zero => intro c; exact ⟨rfl, rfl⟩
  | succ n ih =>
    intro c
    rw [makeRoomL1Fuel]
    split
    · exact ⟨rfl, rfl⟩
    · split
      · rename_i k0 b0 rest heq hc
        rcases ih (demoteToL2 P c k0 b0) with ⟨h1, h2⟩
        rcases demoteToL2_caps P c k0 b0 with ⟨h3, h4⟩
        exact ⟨h1.trans h3, h2.trans h4⟩
      · exact ⟨rfl, rfl⟩

theorem promoteToL1_caps (P : Params) (c : HelixCache) (k : HKey)
    (b : CacheBlock) :
    (promoteToL1 P c k b).l1Max = c.l1Max ∧
    (promoteToL1 P c k b).l2Max = c.l2Max :=
  makeRoomL1Fuel_caps P b.sizeBytes (c.l1.length + 1)
    { c with l2 := dictPop c.l2 k }

theorem promoteToL2_caps (P : Params) (c : HelixCache) (k : HKey)
    (b : CacheBlock) :
    (promoteToL2 P c k b).l1Max = c.l1Max ∧
    (promoteToL2 P c k b).l2Max = c.l2Max :=
  makeRoomL2Fuel_caps P b.sizeBytes (c.l2.length + 1)
    { c with l3 := dictPop c.l3 k }

theorem cachePut_caps (P : Params) (c : HelixCache) (k : HKey) (d : Bytes)
    (size : Nat) :
    (cachePut P c k d size).l1Max = c.l1Max ∧
    (cachePut P c k d size).l2Max = c.l2Max :=
  makeRoomL1Fuel_caps P size (c.l1.length + 1)
    { c with l2 := dictPop c.l2 k, l3 := dictPop c.l3 k }

theorem cacheGet_caps (P : Params) (c : HelixCache) (k : HKey) :
    (cacheGet P c k).2.l1Max = c.l1Max ∧
    (cacheGet P c k).2.l2Max = c.l2Max := by
  unfold cacheGet
  cases hl1 : dictLookup c.l1 k with
  | some b => exact ⟨rfl, rfl⟩
  | none =>
    simp only [hl1]
    cases hl2 : dictLookup c.l2 k with
    | some b =>
      simp only [hl2]
      split
      · exact promoteToL1_caps P _ k b.access
      · exact ⟨rfl, rfl⟩
    | none =>
      simp only [hl2]
      cases hl3 : dictLookup c.l3 k with
      | some b =>
        simp only [hl3]
        split
        · split
          · exact promoteToL2_caps P _ k b.access.decompressB
          · exact ⟨rfl, rfl⟩
        · split
          · exact promoteToL2_caps P _ k b.access
          · exact ⟨rfl, rfl⟩
      | none =>
        simp only [hl3]
        exact ⟨trivial, trivial⟩

theorem memStep_caps (P : Params) (m : HelixMemoryManager) (op : MemOp) :
    (memStep P m op).cache.l1Max = m.cache.l1Max ∧
    (memStep P m op).cache.l2Max = m.cache.l2Max := by
  cases op with
  | get k => exact cacheGet_caps P m.cache k
  | read k => exact cacheGet_caps P m.cache k
  | put k d size => exact cachePut_caps P m.cache k d size
  | malloc k d =>
    show (memMalloc P m k d).2.cache.l1Max = m.cache.l1Max ∧
      (memMalloc P m k d).2.cache.l2Max = m.cache.l2Max
    unfold memMalloc
    by_cases hc : m.totalAllocated + (P.sizeOf d : Int) > m.maxVirtual
    · rw [if_pos hc]
      exact ⟨rfl, rfl⟩
    · rw [if_neg hc]
      exact cachePut_caps P m.cache k d (P.sizeOf d)
  | free k =>
    show (memFree m k).2.cache.l1Max = m.cache.l1Max ∧
      (memFree m k).2.cache.l2Max = m.cache.l2Max
    unfold memFree
    cases hl : dictLookup m.allocations k with
    | none => exact ⟨rfl, rfl⟩
    | some size => exact ⟨rfl, rfl⟩
  | write k d =>
    show (memMalloc P (if (dictLookup m.allocations k).isSome = true
        then (memFree m k).2 else m) k d).2.cache.l1Max = m.cache.l1Max ∧
      (memMalloc P (if (dictLookup m.allocations k).isSome = true
        then (memFree m k).2 else m) k d).2.cache.l2Max = m.cache.l2Max
    have hm1 : (if (dictLookup m.allocations k).isSome = true
        then (memFree m k).2 else m).cache.l1Max = m.cache.l1Max ∧
        (if (dictLookup m.allocations k).isSome = true
        then (memFree m k).2 else m).cache.l2Max = m.cache.l2Max := by
      by_cases hS : (dictLookup m.allocations k).isSome = true
      · rw [if_pos hS]
        unfold memFree
        cases hl : dictLookup m.allocations k with
        | none => exact ⟨rfl, rfl⟩
        | some size => exact ⟨rfl, rfl⟩
      · rw [if_neg hS]
        exact ⟨rfl, rfl⟩
    generalize hgen : (if (dictLookup m.allocations k).isSome = true
        then (memFree m k).2 else m) = m1 at hm1 ⊢
    unfold memMalloc
    by_cases hc : m1.totalAllocated + (P.sizeOf d : Int) > m1.maxVirtual
    · rw [if_pos hc]
      exact hm1
    · rw [if_neg hc]
      rcases cachePut_caps P m1.cache k d (P.sizeOf d) with ⟨h1, h2⟩
      exact ⟨h1.trans hm1.1, h2.trans hm1.2⟩

theorem mem_makeRoomL3Go {M n : Nat} :
    ∀ {t : Tier} {p : HKey × CacheBlock},
      p ∈ (makeRoomL3Go M n t).1 → p ∈ t := by
  intro t
  induction t with
  | nil => intro p h; exact absurd h (List.not_mem_nil p)
  | cons q rest ih =>
    intro p h
    rw [makeRoomL3Go] at h
    by_cases hc : getTierSize (q :: rest) + n > M
    · rw [if_pos hc] at h
      exact List.mem_cons_of_mem q (ih h)
    · rw [if_neg hc] at h
      exact h

theorem nodup_makeRoomL3Go {M n : Nat} :
    ∀ {t : Tier}, dictNodup t → dictNodup (makeRoomL3Go M n t).1 := by
  intro t
  induction t with
  | nil => intro h; exact h
  | cons q rest ih =>
    intro h
    rw [makeRoomL3Go]
    by_cases hc : getTierSize (q :: rest) + n > M
    · rw [if_pos hc]
      exact ih (List.nodup_cons.mp h).2
    · rw [if_neg hc]
      exact h

theorem dictNodup_pop_append (t : Tier) (k : HKey) (v : CacheBlock)
    (h : dictNodup t) : dictNodup (dictPop t k ++ [(k, v)]) := by
  unfold dictNodup keysOf
  rw [List.map_append, List.nodup_append]
  refine ⟨dictNodup_pop t k h, List.nodup_singleton k, ?_⟩
  intro a ha hb
  have hak : a = k := by simpa using hb
  subst hak
  exact not_mem_keysOf_pop t _ ha

theorem CInv_makeRoomL3 (c : HelixCache) (n : Nat) (h : CInv c) :
    CInv (makeRoomL3 c n) := by
  obtain ⟨hn1, hn2, hn3, hu1, hu2, hs1, hs2, hs3, hcp, hS1, hS2⟩ := h
  refine ⟨hn1, hn2, nodup_makeRoomL3Go hn3, hu1, hu2, hs1, hs2, ?_, ?_,
    hS1, hS2⟩
  · intro p hp
    exact hs3 p (mem_makeRoomL3Go hp)
  · intro p hp
    exact hcp p (mem_makeRoomL3Go hp)

theorem CInv_demoteToL3 (P : Params) (c : HelixCache) (k : HKey)
    (b : CacheBlock) (hP : comprNonempty P) (hbu : b.compressed = false)
    (hbs : b.sizeBytes ≤ c.l1Max ∧ b.sizeBytes ≤ c.l2Max) (h : CInv c) :
    CInv (demoteToL3 P c k b) := by
  obtain ⟨hn1, hn2, hn3, hu1, hu2, hs1, hs2, hs3, hcp, hS1, hS2⟩ := h
  have hl1 := demoteToL3_l1 P c k b
  have hl2 := demoteToL3_l2 P c k b
  have hl3 := demoteToL3_l3 P c k b
  obtain ⟨hcap1, hcap2⟩ := demoteToL3_caps P c k b
  have hb2u := compressB_comprOK P b hP hbu
  have hb2s := compressB_sizeBytes P b
  refine ⟨?_, ?_, ?_, ?_, ?_, ?_, ?_, ?_, ?_, ?_, ?_⟩
  · rw [hl1]; exact hn1
  · rw [hl2]; exact dictNodup_pop c.l2 k hn2
  · rw [hl3]
    exact dictNodup_insert _ k _ (nodup_makeRoomL3Go hn3)
  · rw [hl1]; exact hu1
  · rw [hl2]
    intro p hp
    exact hu2 p (mem_dictPop hp)
  · rw [hl1, hcap1, hcap2]; exact hs1
  · rw [hl2, hcap1, hcap2]
    intro p hp
    exact hs2 p (mem_dictPop hp)
  · rw [hl3, hcap1, hcap2]
    intro p hp
    rcases mem_dictInsert hp with h1 | h1
    · exact hs3 p (mem_makeRoomL3Go h1)
    · subst h1
      show (CacheBlock.compressB P b).1.sizeBytes ≤ c.l1Max ∧
        (CacheBlock.compressB P b).1.sizeBytes ≤ c.l2Max
      rw [hb2s]
      exact hbs
  · rw [hl3]
    intro p hp
    rcases mem_dictInsert hp with h1 | h1
    · exact hcp p (mem_makeRoomL3Go h1)
    · subst h1
      intro hcmp
      exact hb2u hcmp
  · rw [hl1, hcap1]; exact hS1
  · rw [hl2, hcap2]
    exact Nat.le_trans (getTierSize_pop_le c.l2 k) hS2

theorem makeRoomL2_caps (P : Params) (c : HelixCache) (needed : Nat) :
    (makeRoomL2 P c needed).l1Max = c.l1Max ∧
    (makeRoomL2 P c needed).l2Max = c.l2Max :=
  makeRoomL2Fuel_caps P needed (c.l2.length + 1) c

theorem makeRoomL1_caps (P : Params) (c : HelixCache) (needed : Nat) :
    (makeRoomL1 P c needed).l1Max = c.l1Max ∧
    (makeRoomL1 P c needed).l2Max = c.l2Max :=
  makeRoomL1Fuel_caps P needed (c.l1.length + 1) c

theorem CInv_makeRoomL2Fuel (P : Params) (needed : Nat)
    (hP : comprNonempty P) :
    ∀ (fuel : Nat) (c : HelixCache), CInv c →
      CInv (makeRoomL2Fuel P needed fuel c) := by
  intro fuel
  induction fuel with
  | zero => intro c h; exact h
  | succ n ih =>
    intro c h
    rw [makeRoomL2Fuel]
    split
    · exact h
    · split
      · rename_i k0 b0 rest heq hc
        have hmem : (k0, b0) ∈ c.l2 := by
          rw [heq]
          exact List.mem_cons_self _ _
        refine ih _ (CInv_demoteToL3 P c k0 b0 hP ?_ ?_ h)
        · exact h.2.2.2.2.1 (k0, b0) hmem
        · exact h.2.2.2.2.2.2.1 (k0, b0) hmem
      · exact h

theorem makeRoomL2Fuel_post (P : Params) (needed : Nat) :
    ∀ (fuel : Nat) (c : HelixCache), c.l2.length ≤ fuel →
      getTierSize (makeRoomL2Fuel P needed fuel c).l2 + needed ≤ c.l2Max ∨
      (makeRoomL2Fuel P needed fuel c).l2 = [] := by
  intro fuel
  induction fuel with
  | zero =>
    intro c hlen
    right
    have : c.l2 = [] := List.length_eq_zero.mp (Nat.le_zero.mp hlen)
    exact this
  | succ n ih =>
    intro c hlen
    rw [makeRoomL2Fuel]
    split
    · rename_i heq
      right
      exact heq
    · split
      · rename_i k0 b0 rest heq hc
        have hlen2 : (demoteToL3 P c k0 b0).l2.length ≤ n := by
          rw [demoteToL3_l2, heq]
          have h1 : dictPop ((k0, b0) :: rest) k0 = dictPop rest k0 := by
            unfold dictPop
            rw [List.filter_cons]
            have : (!decide (((k0, b0) : HKey × CacheBlock).1 = k0)) =
                false := by simp
            rw [this, if_neg (by simp)]
          rw [h1]
          have h2 : (dictPop rest k0).length ≤ rest.length :=
            List.length_filter_le _ rest
          have h3 : rest.length + 1 ≤ n + 1 := by
            rw [heq] at hlen
            simpa using hlen
          omega
        rcases ih (demoteToL3 P c k0 b0) hlen2 with h1 | h1
        · left
          rw [(demoteToL3_caps P c k0 b0).2] at h1
          exact h1
        · right
          exact h1
      · rename_i k0 b0 rest heq hc
        left
        omega

theorem CInv_demoteToL2 (P : Params) (c : HelixCache) (k : HKey)
    (b : CacheBlock) (hP : comprNonempty P) (hbu : b.compressed = false)
    (hbs : b.sizeBytes ≤ c.l1Max ∧ b.sizeBytes ≤ c.l2Max) (h : CInv c) :
    CInv (demoteToL2 P c k b) := by
  have hc1 : CInv { c with l1 := dictPop c.l1 k } := by
    obtain ⟨hn1, hn2, hn3, hu1, hu2, hs1, hs2, hs3, hcp, hS1, hS2⟩ := h
    refine ⟨dictNodup_pop c.l1 k hn1, hn2, hn3, ?_, hu2, ?_, hs2, hs3, hcp,
      ?_, hS2⟩
    · intro p hp
      exact hu1 p (mem_dictPop hp)
    · intro p hp
      exact hs1 p (mem_dictPop hp)
    · exact Nat.le_trans (getTierSize_pop_le c.l1 k) hS1
  have hc2 : CInv (makeRoomL2 P { c with l1 := dictPop c.l1 k }
      b.sizeBytes) :=
    CInv_makeRoomL2Fuel P b.sizeBytes hP (c.l2.length + 1)
      { c with l1 := dictPop c.l1 k } hc1
  have hpost := makeRoomL2Fuel_post P b.sizeBytes (c.l2.length + 1)
    { c with l1 := dictPop c.l1 k } (by show c.l2.length ≤ c.l2.length + 1; omega)
  obtain ⟨hn1, hn2, hn3, hu1, hu2, hs1, hs2, hs3, hcp, hS1, hS2⟩ := hc2
  obtain ⟨hcap1, hcap2⟩ := makeRoomL2Fuel_caps P b.sizeBytes
    (c.l2.length + 1) { c with l1 := dictPop c.l1 k }
  obtain ⟨hdcap1, hdcap2⟩ := demoteToL2_caps P c k b
  refine ⟨hn1, dictNodup_insert _ k _ hn2, hn3, hu1, ?_, ?_, ?_, ?_, hcp,
    ?_, ?_⟩
  · intro p hp
    rcases mem_dictInsert hp with h1 | h1
    · exact hu2 p h1
    · subst h1
      exact hbu
  · show tierSizesOK (demoteToL2 P c k b).l1Max (demoteToL2 P c k b).l2Max _
    rw [hdcap1, hdcap2]
    intro p hp
    have := hs1 p hp
    rw [(makeRoomL2_caps P { c with l1 := dictPop c.l1 k } b.sizeBytes).1,
        (makeRoomL2_caps P { c with l1 := dictPop c.l1 k } b.sizeBytes).2]
      at this
    exact this
  · show tierSizesOK (demoteToL2 P c k b).l1Max (demoteToL2 P c k b).l2Max _
    rw [hdcap1, hdcap2]
    intro p hp
    rcases mem_dictInsert hp with h1 | h1
    · have := hs2 p h1
      rw [(makeRoomL2_caps P { c with l1 := dictPop c.l1 k } b.sizeBytes).1,
          (makeRoomL2_caps P { c with l1 := dictPop c.l1 k } b.sizeBytes).2]
        at this
      exact this
    · subst h1
      exact hbs
  · show tierSizesOK (demoteToL2 P c k b).l1Max (demoteToL2 P c k b).l2Max _
    rw [hdcap1, hdcap2]
    intro p hp
    have := hs3 p hp
    rw [(makeRoomL2_caps P { c with l1 := dictPop c.l1 k } b.sizeBytes).1,
        (makeRoomL2_caps P { c with l1 := dictPop c.l1 k } b.sizeBytes).2]
      at this
    exact this
  · show getTierSize (demoteToL2 P c k b).l1 ≤ (demoteToL2 P c k b).l1Max
    rw [hdcap1]
    rw [(makeRoomL2_caps P { c with l1 := dictPop c.l1 k } b.sizeBytes).1]
      at hS1
    exact hS1
  · show getTierSize (dictInsert (makeRoomL2 P
        { c with l1 := dictPop c.l1 k } b.sizeBytes).l2 k
        { b with tier := MemoryTier.l2Warm }) ≤
      (demoteToL2 P c k b).l2Max
    rw [hdcap2]
    rcases hpost with h1 | h1
    · have hins := getTierSize_insert_le
        (makeRoomL2 P { c with l1 := dictPop c.l1 k } b.sizeBytes).l2 k
        { b with tier := MemoryTier.l2Warm } hn2
      have heff : effSize { b with tier := MemoryTier.l2Warm } =
          b.sizeBytes := by
        have : ({ b with tier := MemoryTier.l2Warm } :
            CacheBlock).compressed = false := hbu
        rw [effSize_uncompressed _ this]
      rw [heff] at hins
      have h1' : getTierSize (makeRoomL2 P { c with l1 := dictPop c.l1 k }
          b.sizeBytes).l2 + b.sizeBytes ≤ c.l2Max := h1
      omega
    · have h1' : (makeRoomL2 P { c with l1 := dictPop c.l1 k }
          b.sizeBytes).l2 = ([] : Tier) := h1
      rw [h1']
      show getTierSize (dictInsert ([] : Tier) k
        { b with tier := MemoryTier.l2Warm }) ≤ c.l2Max
      have : dictInsert ([] : Tier) k
          { b with tier := MemoryTier.l2Warm } =
          [(k, { b with tier := MemoryTier.l2Warm })] := rfl
      rw [this]
      have heff : effSize { b with tier := MemoryTier.l2Warm } =
          b.sizeBytes := by
        have : ({ b with tier := MemoryTier.l2Warm } :
            CacheBlock).compressed = false := hbu
        rw [effSize_uncompressed _ this]
      show getTierSize [(k, { b with tier := MemoryTier.l2Warm })] ≤ c.l2Max
      unfold getTierSize
      simp only [List.map_cons, List.map_nil, List.sum_cons, List.sum_nil]
      rw [heff]
      omega

theorem getTierSize_singleton (k : HKey) (b : CacheBlock) :
    getTierSize [(k, b)] = effSize b := by
  unfold getTierSize
  simp

theorem CInv_makeRoomL1Fuel (P : Params) (needed : Nat)
    (hP : comprNonempty P) :
    ∀ (fuel : Nat) (c : HelixCache), CInv c →
      CInv (makeRoomL1Fuel P needed fuel c) := by
  intro fuel
  induction fuel with
  | zero => intro c h; exact h
  | succ n ih =>
    intro c h
    rw [makeRoomL1Fuel]
    split
    · exact h
    · split
      · rename_i k0 b0 rest heq hc
        have hmem : (k0, b0) ∈ c.l1 := by
          rw [heq]
          exact List.mem_cons_self _ _
        refine ih _ (CInv_demoteToL2 P c k0 b0 hP ?_ ?_ h)
        · exact h.2.2.2.1 (k0, b0) hmem
        · exact h.2.2.2.2.2.1 (k0, b0) hmem
      · exact h

theorem makeRoomL1Fuel_post (P : Params) (needed : Nat) :
    ∀ (fuel : Nat) (c : HelixCache), c.l1.length ≤ fuel →
      getTierSize (makeRoomL1Fuel P needed fuel c).l1 + needed ≤ c.l1Max ∨
      (makeRoomL1Fuel P needed fuel c).l1 = [] := by
  intro fuel
  induction fuel with
  | zero =>
    intro c hlen
    right
    have : c.l1 = [] := List.length_eq_zero.mp (Nat.le_zero.mp hlen)
    exact this
  | succ n ih =>
    intro c hlen
    rw [makeRoomL1Fuel]
    split
    · rename_i heq
      right
      exact heq
    · split
      · rename_i k0 b0 rest heq hc
        have hlen2 : (demoteToL2 P c k0 b0).l1.length ≤ n := by
          rw [demoteToL2_l1, heq]
          have h1 : dictPop ((k0, b0) :: rest) k0 = dictPop rest k0 := by
            unfold dictPop
            rw [List.filter_cons]
            have : (!decide (((k0, b0) : HKey × CacheBlock).1 = k0)) =
                false := by simp
            rw [this, if_neg (by simp)]
          rw [h1]
          have h2 : (dictPop rest k0).length ≤ rest.length :=
            List.length_filter_le _ rest
          have h3 : rest.length + 1 ≤ n + 1 := by
            rw [heq] at hlen
            simpa using hlen
          omega
        rcases ih (demoteToL2 P c k0 b0) hlen2 with h1 | h1
        · left
          rw [(demoteToL2_caps P c k0 b0).1] at h1
          exact h1
        · right
          exact h1
      · rename_i k0 b0 rest heq hc
        left
        omega

theorem CInv_insert_l1 (c : HelixCache) (k : HKey) (b : CacheBlock)
    (hbu : b.compressed = false)
    (hbs : b.sizeBytes ≤ c.l1Max ∧ b.sizeBytes ≤ c.l2Max)
    (hroom : getTierSize c.l1 + b.sizeBytes ≤ c.l1Max ∨ c.l1 = [])
    (h : CInv c) (st : CacheStats) :
    CInv { c with l1 := dictInsert c.l1 k b, stats := st } := by
  obtain ⟨hn1, hn2, hn3, hu1, hu2, hs1, hs2, hs3, hcp, hS1, hS2⟩ := h
  refine ⟨dictNodup_insert _ k _ hn1, hn2, hn3, ?_, hu2, ?_, hs2, hs3,
    hcp, ?_, hS2⟩
  · intro p hp
    rcases mem_dictInsert hp with h1 | h1
    · exact hu1 p h1
    · subst h1
      exact hbu
  · intro p hp
    rcases mem_dictInsert hp with h1 | h1
    · exact hs1 p h1
    · subst h1
      exact hbs
  · show getTierSize (dictInsert c.l1 k b) ≤ c.l1Max
    rcases hroom with h1 | h1
    · have hins := getTierSize_insert_le c.l1 k b hn1
      have heff : effSize b = b.sizeBytes := effSize_uncompressed b hbu
      omega
    · rw [h1]
      have he : dictInsert ([] : Tier) k b = [(k, b)] := rfl
      rw [he, getTierSize_singleton, effSize_uncompressed b hbu]
      exact hbs.1

theorem CInv_insert_l2 (c : HelixCache) (k : HKey) (b : CacheBlock)
    (hbu : b.compressed = false)
    (hbs : b.sizeBytes ≤ c.l1Max ∧ b.sizeBytes ≤ c.l2Max)
    (hroom : getTierSize c.l2 + b.sizeBytes ≤ c.l2Max ∨ c.l2 = [])
    (h : CInv c) (st : CacheStats) :
    CInv { c with l2 := dictInsert c.l2 k b, stats := st } := by
  obtain ⟨hn1, hn2, hn3, hu1, hu2, hs1, hs2, hs3, hcp, hS1, hS2⟩ := h
  refine ⟨hn1, dictNodup_insert _ k _ hn2, hn3, hu1, ?_, hs1, ?_, hs3,
    hcp, hS1, ?_⟩
  · intro p hp
    rcases mem_dictInsert hp with h1 | h1
    · exact hu2 p h1
    · subst h1
      exact hbu
  · intro p hp
    rcases mem_dictInsert hp with h1 | h1
    · exact hs2 p h1
    · subst h1
      exact hbs
  · show getTierSize (dictInsert c.l2 k b) ≤ c.l2Max
    rcases hroom with h1 | h1
    · have hins := getTierSize_insert_le c.l2 k b hn2
      have heff : effSize b = b.sizeBytes := effSize_uncompressed b hbu
      omega
    · rw [h1]
      have he : dictInsert ([] : Tier) k b = [(k, b)] := rfl
      rw [he, getTierSize_singleton, effSize_uncompressed b hbu]
      exact hbs.2

theorem CInv_promoteToL1 (P : Params) (c : HelixCache) (k : HKey)
    (b : CacheBlock) (hP : comprNonempty P) (hbu : b.compressed = false)
    (hbs : b.sizeBytes ≤ c.l1Max ∧ b.sizeBytes ≤ c.l2Max) (h : CInv c) :
    CInv (promoteToL1 P c k b) := by
  have hc1 : CInv { c with l2 := dictPop c.l2 k } := by
    obtain ⟨hn1, hn2, hn3, hu1, hu2, hs1, hs2, hs3, hcp, hS1, hS2⟩ := h
    refine ⟨hn1, dictNodup_pop c.l2 k hn2, hn3, hu1, ?_, hs1, ?_, hs3, hcp,
      hS1, ?_⟩
    · intro p hp
      exact hu2 p (mem_dictPop hp)
    · intro p hp
      exact hs2 p (mem_dictPop hp)
    · exact Nat.le_trans (getTierSize_pop_le c.l2 k) hS2
  have hc2 : CInv (makeRoomL1 P { c with l2 := dictPop c.l2 k }
      b.sizeBytes) :=
    CInv_makeRoomL1Fuel P b.sizeBytes hP (c.l1.length + 1)
      { c with l2 := dictPop c.l2 k } hc1
  have hpost := makeRoomL1Fuel_post P b.sizeBytes (c.l1.length + 1)
    { c with l2 := dictPop c.l2 k }
    (by show c.l1.length ≤ c.l1.length + 1; omega)
  have hroom : getTierSize (makeRoomL1 P { c with l2 := dictPop c.l2 k }
        b.sizeBytes).l1 + ({ b with tier := MemoryTier.l1Hot } :
        CacheBlock).sizeBytes ≤
      (makeRoomL1 P { c with l2 := dictPop c.l2 k } b.sizeBytes).l1Max ∨
      (makeRoomL1 P { c with l2 := dictPop c.l2 k } b.sizeBytes).l1 = [] := by
    rcases hpost with h1 | h1
    · left
      rw [(makeRoomL1_caps P { c with l2 := dictPop c.l2 k } b.sizeBytes).1]
      exact h1
    · right
      exact h1
  have hbs2 : ({ b with tier := MemoryTier.l1Hot } : CacheBlock).sizeBytes ≤
        (makeRoomL1 P { c with l2 := dictPop c.l2 k } b.sizeBytes).l1Max ∧
      ({ b with tier := MemoryTier.l1Hot } : CacheBlock).sizeBytes ≤
        (makeRoomL1 P { c with l2 := dictPop c.l2 k } b.sizeBytes).l2Max := by
    constructor
    · rw [(makeRoomL1_caps P { c with l2 := dictPop c.l2 k } b.sizeBytes).1]
      exact hbs.1
    · rw [(makeRoomL1_caps P { c with l2 := dictPop c.l2 k } b.sizeBytes).2]
      exact hbs.2
  exact CInv_insert_l1 (makeRoomL1 P { c with l2 := dictPop c.l2 k }
      b.sizeBytes) k { b with tier := MemoryTier.l1Hot } hbu hbs2 hroom hc2
    { (makeRoomL1 P { c with l2 := dictPop c.l2 k } b.sizeBytes).stats with
      promotions := (makeRoomL1 P { c with l2 := dictPop c.l2 k }
        b.sizeBytes).stats.promotions + 1 }

theorem CInv_promoteToL2 (P : Params) (c : HelixCache) (k : HKey)
    (b : CacheBlock) (hP : comprNonempty P) (hbu : b.compressed = false)
    (hbs : b.sizeBytes ≤ c.l1Max ∧ b.sizeBytes ≤ c.l2Max) (h : CInv c) :
    CInv (promoteToL2 P c k b) := by
  have hc1 : CInv { c with l3 := dictPop c.l3 k } := by
    obtain ⟨hn1, hn2, hn3, hu1, hu2, hs1, hs2, hs3, hcp, hS1, hS2⟩ := h
    refine ⟨hn1, hn2, dictNodup_pop c.l3 k hn3, hu1, hu2, hs1, hs2, ?_, ?_,
      hS1, hS2⟩
    · intro p hp
      exact hs3 p (mem_dictPop hp)
    · intro p hp
      exact hcp p (mem_dictPop hp)
  have hc2 : CInv (makeRoomL2 P { c with l3 := dictPop c.l3 k }
      b.sizeBytes) :=
    CInv_makeRoomL2Fuel P b.sizeBytes hP (c.l2.length + 1)
      { c with l3 := dictPop c.l3 k } hc1
  have hpost := makeRoomL2Fuel_post P b.sizeBytes (c.l2.length + 1)
    { c with l3 := dictPop c.l3 k }
    (by show c.l2.length ≤ c.l2.length + 1; omega)
  have hroom : getTierSize (makeRoomL2 P { c with l3 := dictPop c.l3 k }
        b.sizeBytes).l2 + ({ b with tier := MemoryTier.l2Warm } :
        CacheBlock).sizeBytes ≤
      (makeRoomL2 P { c with l3 := dictPop c.l3 k } b.sizeBytes).l2Max ∨
      (makeRoomL2 P { c with l3 := dictPop c.l3 k } b.sizeBytes).l2 = [] := by
    rcases hpost with h1 | h1
    · left
      rw [(makeRoomL2_caps P { c with l3 := dictPop c.l3 k } b.sizeBytes).2]
      exact h1
    · right
      exact h1
  have hbs2 : ({ b with tier := MemoryTier.l2Warm } : CacheBlock).sizeBytes ≤
        (makeRoomL2 P { c with l3 := dictPop c.l3 k } b.sizeBytes).l1Max ∧
      ({ b with tier := MemoryTier.l2Warm } : CacheBlock).sizeBytes ≤
        (makeRoomL2 P { c with l3 := dictPop c.l3 k } b.sizeBytes).l2Max := by
    constructor
    · rw [(makeRoomL2_caps P { c with l3 := dictPop c.l3 k } b.sizeBytes).1]
      exact hbs.1
    · rw [(makeRoomL2_caps P { c with l3 := dictPop c.l3 k } b.sizeBytes).2]
      exact hbs.2
  exact CInv_insert_l2 (makeRoomL2 P { c with l3 := dictPop c.l3 k }
      b.sizeBytes) k { b with tier := MemoryTier.l2Warm } hbu hbs2 hroom hc2
    { (makeRoomL2 P { c with l3 := dictPop c.l3 k } b.sizeBytes).stats with
      promotions := (makeRoomL2 P { c with l3 := dictPop c.l3 k }
        b.sizeBytes).stats.promotions + 1 }

theorem CInv_cachePut (P : Params) (c : HelixCache) (k : HKey) (d : Bytes)
    (size : Nat) (hP : comprNonempty P)
    (hsz : size ≤ c.l1Max ∧ size ≤ c.l2Max) (h : CInv c) :
    CInv (cachePut P c k d size) := by
  have hc1 : CInv { c with l2 := dictPop c.l2 k, l3 := dictPop c.l3 k } := by
    obtain ⟨hn1, hn2, hn3, hu1, hu2, hs1, hs2, hs3, hcp, hS1, hS2⟩ := h
    refine ⟨hn1, dictNodup_pop c.l2 k hn2, dictNodup_pop c.l3 k hn3, hu1,
      ?_, hs1, ?_, ?_, ?_, hS1, ?_⟩
    · intro p hp
      exact hu2 p (mem_dictPop hp)
    · intro p hp
      exact hs2 p (mem_dictPop hp)
    · intro p hp
      exact hs3 p (mem_dictPop hp)
    · intro p hp
      exact hcp p (mem_dictPop hp)
    · exact Nat.le_trans (getTierSize_pop_le c.l2 k) hS2
  have hc2 : CInv (makeRoomL1 P
      { c with l2 := dictPop c.l2 k, l3 := dictPop c.l3 k } size) :=
    CInv_makeRoomL1Fuel P size hP (c.l1.length + 1)
      { c with l2 := dictPop c.l2 k, l3 := dictPop c.l3 k } hc1
  have hpost := makeRoomL1Fuel_post P size (c.l1.length + 1)
    { c with l2 := dictPop c.l2 k, l3 := dictPop c.l3 k }
    (by show c.l1.length ≤ c.l1.length + 1; omega)
  have hroom : getTierSize (makeRoomL1 P
        { c with l2 := dictPop c.l2 k, l3 := dictPop c.l3 k } size).l1 +
        ({ data := d, tier := MemoryTier.l1Hot, sizeBytes := size } :
        CacheBlock).sizeBytes ≤
      (makeRoomL1 P { c with l2 := dictPop c.l2 k, l3 := dictPop c.l3 k }
        size).l1Max ∨
      (makeRoomL1 P { c with l2 := dictPop c.l2 k, l3 := dictPop c.l3 k }
        size).l1 = [] := by
    rcases hpost with h1 | h1
    · left
      rw [(makeRoomL1_caps P
        { c with l2 := dictPop c.l2 k, l3 := dictPop c.l3 k } size).1]
      exact h1
    · right
      exact h1
  have hbs2 : ({ data := d, tier := MemoryTier.l1Hot, sizeBytes := size } :
        CacheBlock).sizeBytes ≤
      (makeRoomL1 P { c with l2 := dictPop c.l2 k, l3 := dictPop c.l3 k }
        size).l1Max ∧
      ({ data := d, tier := MemoryTier.l1Hot, sizeBytes := size } :
        CacheBlock).sizeBytes ≤
      (makeRoomL1 P { c with l2 := dictPop c.l2 k, l3 := dictPop c.l3 k }
        size).l2Max := by
    constructor
    · rw [(makeRoomL1_caps P
        { c with l2 := dictPop c.l2 k, l3 := dictPop c.l3 k } size).1]
      exact hsz.1
    · rw [(makeRoomL1_caps P
        { c with l2 := dictPop c.l2 k, l3 := dictPop c.l3 k } size).2]
      exact hsz.2
  exact CInv_insert_l1 (makeRoomL1 P
      { c with l2 := dictPop c.l2 k, l3 := dictPop c.l3 k } size) k
    { data := d, tier := MemoryTier.l1Hot, sizeBytes := size } rfl hbs2
    hroom hc2
    (makeRoomL1 P { c with l2 := dictPop c.l2 k, l3 := dictPop c.l3 k }
      size).stats

theorem CInv_cacheGet (P : Params) (c : HelixCache) (k : HKey)
    (hP : comprNonempty P) (h : CInv c) : CInv (cacheGet P c k).2 := by
  obtain ⟨hn1, hn2, hn3, hu1, hu2, hs1, hs2, hs3, hcp, hS1, hS2⟩ := h
  unfold cacheGet
  cases hl1 : dictLookup c.l1 k with
  | some b =>
    have hmem := dictLookup_mem hl1
    refine ⟨?_, hn2, hn3, ?_, hu2, ?_, hs2, hs3, hcp, ?_, hS2⟩
    · exact dictNodup_pop_append c.l1 k _ hn1
    · intro p hp
      rcases List.mem_append.mp hp with h1 | h1
      · exact hu1 p (mem_dictPop h1)
      · have he : p = (k, b.access) := by simpa using h1
        subst he
        exact hu1 (k, b) hmem
    · intro p hp
      rcases List.mem_append.mp hp with h1 | h1
      · exact hs1 p (mem_dictPop h1)
      · have he : p = (k, b.access) := by simpa using h1
        subst he
        exact hs1 (k, b) hmem
    · show getTierSize (dictPop c.l1 k ++ [(k, b.access)]) ≤ c.l1Max
      rw [getTierSize_append, getTierSize_singleton, effSize_access]
      have hle := getTierSize_pop_add_le c.l1 k b hl1 hn1
      omega
  | none =>
    simp only [hl1]
    cases hl2 : dictLookup c.l2 k with
    | some b =>
      simp only [hl2]
      have hmem := dictLookup_mem hl2
      split
      · exact CInv_promoteToL1 P _ k b.access hP (hu2 (k, b) hmem)
          (hs2 (k, b) hmem)
          ⟨hn1, hn2, hn3, hu1, hu2, hs1, hs2, hs3, hcp, hS1, hS2⟩
      · refine ⟨hn1, ?_, hn3, hu1, ?_, hs1, ?_, hs3, hcp, hS1, ?_⟩
        · exact dictNodup_pop_append c.l2 k _ hn2
        · intro p hp
          rcases List.mem_append.mp hp with h1 | h1
          · exact hu2 p (mem_dictPop h1)
          · have he : p = (k, b.access) := by simpa using h1
            subst he
            exact hu2 (k, b) hmem
        · intro p hp
          rcases List.mem_append.mp hp with h1 | h1
          · exact hs2 p (mem_dictPop h1)
          · have he : p = (k, b.access) := by simpa using h1
            subst he
            exact hs2 (k, b) hmem
        · show getTierSize (dictPop c.l2 k ++ [(k, b.access)]) ≤ c.l2Max
          rw [getTierSize_append, getTierSize_singleton, effSize_access]
          have hle := getTierSize_pop_add_le c.l2 k b hl2 hn2
          omega
    | none =>
      simp only [hl2]
      cases hl3 : dictLookup c.l3 k with
      | some b =>
        simp only [hl3]
        have hmem := dictLookup_mem hl3
        split
        · rename_i hcmp
          have hok : ∃ cd, b.access.compressedData = some cd ∧ cd ≠ [] :=
            hcp (k, b) hmem hcmp
          have hbu2 : b.access.decompressB.compressed = false :=
            decompressB_uncompressed b.access hok hcmp
          have hsz2 : b.access.decompressB.sizeBytes = b.sizeBytes :=
            decompressB_sizeBytes b.access
          have hbs2 : b.access.decompressB.sizeBytes ≤ c.l1Max ∧
              b.access.decompressB.sizeBytes ≤ c.l2Max := by
            rw [hsz2]
            exact hs3 (k, b) hmem
          split
          · exact CInv_promoteToL2 P _ k b.access.decompressB hP hbu2 hbs2
              ⟨hn1, hn2, hn3, hu1, hu2, hs1, hs2, hs3, hcp, hS1, hS2⟩
          · refine ⟨hn1, hn2, ?_, hu1, hu2, hs1, hs2, ?_, ?_, hS1, hS2⟩
            · exact dictNodup_pop_append c.l3 k _ hn3
            · intro p hp
              rcases List.mem_append.mp hp with h1 | h1
              · exact hs3 p (mem_dictPop h1)
              · have he : p = (k, b.access.decompressB) := by simpa using h1
                subst he
                exact hbs2
            · intro p hp
              rcases List.mem_append.mp hp with h1 | h1
              · exact hcp p (mem_dictPop h1)
              · have he : p = (k, b.access.decompressB) := by simpa using h1
                subst he
                intro hc2
                rw [hbu2] at hc2
                exact Bool.noConfusion hc2
        · rename_i hcmp
          have hbu2 : b.access.compressed = false := by
            simpa using hcmp
          split
          · exact CInv_promoteToL2 P _ k b.access hP hbu2
              (hs3 (k, b) hmem)
              ⟨hn1, hn2, hn3, hu1, hu2, hs1, hs2, hs3, hcp, hS1, hS2⟩
          · refine ⟨hn1, hn2, ?_, hu1, hu2, hs1, hs2, ?_, ?_, hS1, hS2⟩
            · exact dictNodup_pop_append c.l3 k _ hn3
            · intro p hp
              rcases List.mem_append.mp hp with h1 | h1
              · exact hs3 p (mem_dictPop h1)
              · have he : p = (k, b.access) := by simpa using h1
                subst he
                exact hs3 (k, b) hmem
            · intro p hp
              rcases List.mem_append.mp hp with h1 | h1
              · exact hcp p (mem_dictPop h1)
              · have he : p = (k, b.access) := by simpa using h1
                subst he
                intro hc2
                rw [hbu2] at hc2
                exact Bool.noConfusion hc2
      | none =>
        simp only [hl3]
        exact ⟨hn1, hn2, hn3, hu1, hu2, hs1, hs2, hs3, hcp, hS1, hS2⟩

theorem memFree_caps (m : HelixMemoryManager) (k : HKey) :
    (memFree m k).2.cache.l1Max = m.cache.l1Max ∧
    (memFree m k).2.cache.l2Max = m.cache.l2Max := by
  unfold memFree
  split
  · exact ⟨rfl, rfl⟩
  · exact ⟨rfl, rfl⟩

theorem CInv_memFree (m : HelixMemoryManager) (k : HKey)
    (h : CInv m.cache) : CInv (memFree m k).2.cache := by
  unfold memFree
  split
  · exact h
  · obtain ⟨hn1, hn2, hn3, hu1, hu2, hs1, hs2, hs3, hcp, hS1, hS2⟩ := h
    refine ⟨dictNodup_pop _ k hn1, dictNodup_pop _ k hn2,
      dictNodup_pop _ k hn3, ?_, ?_, ?_, ?_, ?_, ?_, ?_, ?_⟩
    · intro p hp
      exact hu1 p (mem_dictPop hp)
    · intro p hp
      exact hu2 p (mem_dictPop hp)
    · intro p hp
      exact hs1 p (mem_dictPop hp)
    · intro p hp
      exact hs2 p (mem_dictPop hp)
    · intro p hp
      exact hs3 p (mem_dictPop hp)
    · intro p hp
      exact hcp p (mem_dictPop hp)
    · exact Nat.le_trans (getTierSize_pop_le _ k) hS1
    · exact Nat.le_trans (getTierSize_pop_le _ k) hS2

theorem CInv_memStep (P : Params) (m : HelixMemoryManager) (op : MemOp)
    (hP : comprNonempty P)
    (hop : opSizeOK P m.cache.l1Max m.cache.l2Max op = true)
    (h : CInv m.cache) : CInv (memStep P m op).cache := by
  cases op with
  | get k => exact CInv_cacheGet P m.cache k hP h
  | read k => exact CInv_cacheGet P m.cache k hP h
  | put k d size =>
    have hsz : size ≤ m.cache.l1Max ∧ size ≤ m.cache.l2Max := by
      simpa [opSizeOK] using hop
    exact CInv_cachePut P m.cache k d size hP hsz h
  | malloc k d =>
    have hsz : P.sizeOf d ≤ m.cache.l1Max ∧ P.sizeOf d ≤ m.cache.l2Max := by
      simpa [opSizeOK] using hop
    show CInv (memMalloc P m k d).2.cache
    simp only [memMalloc]
    split
    · exact h
    · exact CInv_cachePut P m.cache k d (P.sizeOf d) hP hsz h
  | free k => exact CInv_memFree m k h
  | write k d =>
    have hsz : P.sizeOf d ≤ m.cache.l1Max ∧ P.sizeOf d ≤ m.cache.l2Max := by
      simpa [opSizeOK] using hop
    show CInv (memWrite P m k d).2.cache
    simp only [memWrite]
    by_cases hal : (dictLookup m.allocations k).isSome
    · rw [if_pos hal]
      have h1 : CInv (memFree m k).2.cache := CInv_memFree m k h
      have hcap := memFree_caps m k
      simp only [memMalloc]
      split
      · exact h1
      · refine CInv_cachePut P (memFree m k).2.cache k d (P.sizeOf d) hP
          ⟨?_, ?_⟩ h1
        · rw [hcap.1]
          exact hsz.1
        · rw [hcap.2]
          exact hsz.2
    · rw [if_neg hal]
      simp only [memMalloc]
      split
      · exact h
      · exact CInv_cachePut P m.cache k d (P.sizeOf d) hP hsz h

theorem memRun_caps (P : Params) :
    ∀ (ops : List MemOp) (m : HelixMemoryManager),
      (memRun P m ops).cache.l1Max = m.cache.l1Max ∧
      (memRun P m ops).cache.l2Max = m.cache.l2Max := by
  intro ops
  induction ops with
  | nil => intro m; exact ⟨rfl, rfl⟩
  | cons op rest ih =>
    intro m
    rw [memRun]
    rcases ih (memStep P m op) with ⟨h1, h2⟩
    rcases memStep_caps P m op with ⟨h3, h4⟩
    exact ⟨h1.trans h3, h2.trans h4⟩

theorem CInv_memRun (P : Params) (hP : comprNonempty P) :
    ∀ (ops : List MemOp) (m : HelixMemoryManager), CInv m.cache →
      (∀ op ∈ ops, opSizeOK P m.cache.l1Max m.cache.l2Max op = true) →
      CInv (memRun P m ops).cache := by
  intro ops
  induction ops with
  | nil =>
    intro m h _
    exact h
  | cons op rest ih =>
    intro m h hops
    rw [memRun]
    refine ih (memStep P m op)
      (CInv_memStep P m op hP (hops op (List.mem_cons_self _ _)) h) ?_
    intro op2 hop2
    rcases memStep_caps P m op with ⟨h3, h4⟩
    rw [h3, h4]
    exact hops op2 (List.mem_cons_of_mem _ hop2)

theorem CInv_initCache (l1Mb l2Mb l3Mb : Nat) :
    CInv (initCache l1Mb l2Mb l3Mb) := by
  refine ⟨List.nodup_nil, List.nodup_nil, List.nodup_nil, ?_, ?_, ?_, ?_,
    ?_, ?_, Nat.zero_le _, Nat.zero_le _⟩ <;>
    intro p hp <;> exact absurd hp (List.not_mem_nil p)

/-- C2 (amended): the Hot and Warm occupancy bounds hold after every
sequence of public operations from the empty cache, provided every block
the sequence inserts (`put` size, or the serialized size of the data a
`malloc`/`write` stores) fits both the Hot and the Warm capacity, and the
compressor never produces an empty payload.  The original claim's "for
each tier, including when a single block's size exceeds the tier
capacity" fails: an oversized block is inserted after the make-room loop
empties the tier and leaves it over capacity (`C2_counterexample`), and
the Compressed tier's occupancy is not bounded by the code at all. -/
theorem C2_occupancy_hot_warm (P : Params) (l1Mb l2Mb l3Mb vMb : Nat)
    (ops : List MemOp) (hP : comprNonempty P)
    (hops : ∀ op ∈ ops,
      opSizeOK P (l1Mb * 1024 * 1024) (l2Mb * 1024 * 1024) op = true) :
    getTierSize (memRun P (initMem (initCache l1Mb l2Mb l3Mb) vMb)
        ops).cache.l1 ≤ l1Mb * 1024 * 1024 ∧
    getTierSize (memRun P (initMem (initCache l1Mb l2Mb l3Mb) vMb)
        ops).cache.l2 ≤ l2Mb * 1024 * 1024 := by
  have h0 : CInv (initMem (initCache l1Mb l2Mb l3Mb) vMb).cache :=
    CInv_initCache l1Mb l2Mb l3Mb
  have hr := CInv_memRun P hP ops (initMem (initCache l1Mb l2Mb l3Mb) vMb)
    h0 hops
  obtain ⟨-, -, -, -, -, -, -, -, -, hS1, hS2⟩ := hr
  constructor
  · rw [(memRun_caps P ops (initMem (initCache l1Mb l2Mb l3Mb) vMb)).1]
      at hS1
    exact hS1
  · rw [(memRun_caps P ops (initMem (initCache l1Mb l2Mb l3Mb) vMb)).2]
      at hS2
    exact hS2

/-- Witness for C2 (amended): a run exercising malloc, get, put, write and
free with blocks that fit the 1 MB Hot and Warm capacities. -/
theorem C2_occupancy_hot_warm_witness :
    getTierSize (memRun pLen (initMem (initCache 1 1 1) 8)
        [MemOp.malloc (HKey.user "a") [0, 1, 2],
         MemOp.get (HKey.user "a"),
         MemOp.put (HKey.user "b") [3] 4096,
         MemOp.write (HKey.user "a") [4, 5],
         MemOp.free (HKey.user "b")]).cache.l1 ≤ 1 * 1024 * 1024 ∧
    getTierSize (memRun pLen (initMem (initCache 1 1 1) 8)
        [MemOp.malloc (HKey.user "a") [0, 1, 2],
         MemOp.get (HKey.user "a"),
         MemOp.put (HKey.user "b") [3] 4096,
         MemOp.write (HKey.user "a") [4, 5],
         MemOp.free (HKey.user "b")]).cache.l2 ≤ 1 * 1024 * 1024 :=
  C2_occupancy_hot_warm pLen 1 1 1 8
    [MemOp.malloc (HKey.user "a") [0, 1, 2],
     MemOp.get (HKey.user "a"),
     MemOp.put (HKey.user "b") [3] 4096,
     MemOp.write (HKey.user "a") [4, 5],
     MemOp.free (HKey.user "b")]
    (fun d h => Option.noConfusion h) (by decide)
